import Mathlib

/-!
Verification development for the gemmbitserial repository.

The C++ sources are embedded shallowly:
* `gemmbitserial.hpp` (namespace `gemmbitserial`): `alignTo`, `BitSerialMatrix`
  with its accessors and importers/exporters, `finetuneBlockSize`,
  `GEMMContext`, `allocGEMMContext_base`.
* `gemm-bitserial.cpp` (the Roaring-bitmap prototype): `threshold` and
  `bitSerialMatrixVectorThreshold`.
* The architecture back-end `arch-generic.hpp` (the `gemmBitSerial` kernel and
  `sumRows`) is not among the sources; those operations are modelled from the
  specification, as marked in their doc comments.

Machine integers are modelled by `Nat`/`Int` with explicit wrap-around where
the C++ types wrap (`uint8_t` conversions, `uint32_t`/`int32_t` accumulators).
C `for` loops become folds over `List.range`, or fuel-indexed structural
recursions whose fuel provably dominates the trip count.
-/

namespace GemmBitserial

/-- `alignTo(in, af)` from gemmbitserial.hpp: round `i` up to a multiple of
`af`.  (For `af = 0` the C++ computes `i % 0`, which is undefined; `Nat`
conventions make the function return `i`, and every claim supplies `af > 0`.) -/
def alignTo (i af : Nat) : Nat :=
  if i % af ≠ 0 then i + (af - i % af) else i

/-- Fuel-indexed population count: one step per bit, recursion on the fuel.
`popcountAux fuel n` equals the popcount of `n` whenever `n ≤ fuel`. -/
def popcountAux : Nat → Nat → Nat
  | 0, _ => 0
  | fuel + 1, n => if n = 0 then 0 else n % 2 + popcountAux fuel (n / 2)

/-- Population count of a machine word (`__builtin_popcountll`). -/
def popcount (n : Nat) : Nat := popcountAux n n

/-- The `BitSerialMatrix` class of gemmbitserial.hpp.  The `uint64_t * data`
buffer is modelled as a total map from word index to word value; live words
always stay below `2 ^ 64`. -/
structure BitSerialMatrix where
  issigned : Bool
  nbits : Nat
  nrows : Nat
  ncols : Nat
  nrows_a : Nat
  ncols_a : Nat
  data : Nat → Nat

namespace BitSerialMatrix

/-- `isBipolar()`: the matrix holds bipolar binary values iff `nbits == 1 && issigned`. -/
def isBipolar (m : BitSerialMatrix) : Bool := m.nbits == 1 && m.issigned

/-- `wordsPerRow()`: `ncols_a / 64`. -/
def wordsPerRow (m : BitSerialMatrix) : Nat := m.ncols_a / 64

/-- `wordsPerBitplane()`: `nrows_a * wordsPerRow()`. -/
def wordsPerBitplane (m : BitSerialMatrix) : Nat := m.nrows_a * m.wordsPerRow

/-- `bitpos(col)`: `col & 63`, i.e. `col % 64`. -/
def bitpos (col : Nat) : Nat := col % 64

/-- Index of the container word for bit `bit`, row `row`, column `col`:
`bit*wordsPerBitplane + row*wordsPerRow + (col >> 6)`. -/
def wordIdx (m : BitSerialMatrix) (bit row col : Nat) : Nat :=
  bit * m.wordsPerBitplane + row * m.wordsPerRow + col / 64

/-- `get(bit, row, col)`: `((word(bit,row,col) >> bitpos(col)) & 1) == 1`. -/
def get (m : BitSerialMatrix) (bit row col : Nat) : Bool :=
  Nat.testBit (m.data (m.wordIdx bit row col)) (bitpos col)

/-- `set(bit, row, col)`: or the container word with `1 << bitpos(col)`. -/
def set (m : BitSerialMatrix) (bit row col : Nat) : BitSerialMatrix :=
  { m with data := fun i =>
      if i = m.wordIdx bit row col then m.data i ||| 1 <<< bitpos col else m.data i }

/-- `clearAll()`: `memset` the `nbits * wordsPerBitplane()` buffer words to zero. -/
def clearAll (m : BitSerialMatrix) : BitSerialMatrix :=
  { m with data := fun i =>
      if i < m.nbits * m.wordsPerBitplane then 0 else m.data i }

/-- `BitSerialMatrix::alloc`.  `new uint64_t[nbits * wordsPerBitplane]`
default-initialises, so the buffer holds whatever the allocator hands over:
that indeterminate content is the `fresh` parameter.  The C++ performs no
validation whatsoever on `nbits`, `rowalign` or `colalign`. -/
def alloc (fresh : Nat → Nat) (nbits nrows ncols : Nat) (issigned : Bool)
    (rowalign colalign : Nat) : BitSerialMatrix where
  issigned := issigned
  nbits := nbits
  nrows := nrows
  ncols := ncols
  nrows_a := alignTo nrows rowalign
  ncols_a := alignTo ncols colalign
  data := fresh

/-- The `uint8_t` intermediate computed by `importRegular` for a non-bipolar
element: two's-complement remap for negative signed values, otherwise a plain
`(uint8_t)` cast.  All three C++ conversions to `uint8_t` wrap modulo 256. -/
def importByte (issigned : Bool) (nbits : Nat) (v : Int) : Nat :=
  if issigned ∧ v < 0 then
    (2 ^ (nbits - 1) % 256 + ((v + 2 ^ (nbits - 1)) % 256).toNat) % 256
  else ((v % 256).toNat) % 256

/-- The bit-plane writes shared by both importers: for each `b < nbits`, set
bit `(b, r, c)` iff `currentElem_uint8 & (1 << b)` is non-zero. -/
def writeByteBits (m : BitSerialMatrix) (byte r c : Nat) : BitSerialMatrix :=
  (List.range m.nbits).foldl
    (fun acc b => if byte.testBit b then acc.set b r c else acc) m

/-- Body of `importRegular`'s per-element conversion: bipolar encoding sets
bit 0 for strictly positive values; otherwise the `uint8_t` two's-complement
intermediate is split into bit-planes. -/
def importElem (m : BitSerialMatrix) (v : Int) (r c : Nat) : BitSerialMatrix :=
  if m.isBipolar then
    if 0 < v then m.set 0 r c else m
  else
    writeByteBits m (importByte m.issigned m.nbits v) r c

/-- The bit that `importElem` stores at plane `b` for one element: bipolar
matrices store the sign test on plane 0, others store bit `b` of the
`uint8_t` intermediate. -/
def importBit (issigned : Bool) (nbits : Nat) (v : Int) (b : Nat) : Bool :=
  if nbits == 1 && issigned then b == 0 && decide (0 < v)
  else (importByte issigned nbits v).testBit b

/-- Element read of `importRegular`/`importRegularAndQuantize`:
`readColMajor ? matrix[c*nrows + r] : matrix[r*ncols + c]`. -/
def srcElem (matrix : Nat → Int) (nrows ncols : Nat) (readColMajor : Bool)
    (r c : Nat) : Int :=
  if readColMajor then matrix (c * nrows + r) else matrix (r * ncols + c)

/-- `importRegular<T>(matrix, readColMajor)`: clear, then convert every
logical element. -/
def importRegular (m : BitSerialMatrix) (matrix : Nat → Int)
    (readColMajor : Bool) : BitSerialMatrix :=
  (List.range m.nrows).foldl
    (fun acc r =>
      (List.range m.ncols).foldl
        (fun acc2 c =>
          importElem acc2 (srcElem matrix m.nrows m.ncols readColMajor r c) r c)
        acc)
    m.clearAll

/-- The threshold-search loop of `importRegularAndQuantize`, fuel-indexed: at
index `t < nThres`, if `v ≤ thresholds[t*nrows + r]` the element becomes `t`
and the loop breaks; at the last index without a crossing the element becomes
`t + 1` and the loop then falls off the end.  `fuel ≥ nThres - t` dominates
the trip count. -/
def quantizeLoop (th : Nat → Int) (nrows r nThres : Nat) :
    Nat → Nat → Int → Int
  | 0, _, v => v
  | fuel + 1, t, v =>
    if t < nThres then
      if v ≤ th (t * nrows + r) then (t : Int)
      else quantizeLoop th nrows r nThres fuel (t + 1)
        (if t = nThres - 1 then (t : Int) + 1 else v)
    else v

/-- Smallest threshold index crossed, or `nThres` if none — the quantisation
rule as the specification words it (a second definition, kept separate from
the source-shaped `quantizeLoop`, for the refinement statement of C7). -/
def quantSpecIdx (th : Nat → Int) (nrows r nThres : Nat) (v : Int) :
    Nat → Nat → Nat
  | 0, _ => nThres
  | fuel + 1, t =>
    if t < nThres then
      if v ≤ th (t * nrows + r) then t
      else quantSpecIdx th nrows r nThres v fuel (t + 1)
    else nThres

/-- Per-element body of `importRegularAndQuantize` after quantisation:
`(uint8_t) currentElem` then bit-plane writes. -/
def quantElem (m : BitSerialMatrix) (q : Int) (r c : Nat) : BitSerialMatrix :=
  writeByteBits m ((q % 256).toNat % 256) r c

/-- `importRegularAndQuantize<T>(matrix, thresholds, nThres, readColMajor)`.
The function begins with `assert(!this->issigned)`; the failed assertion is
modelled as `none`. -/
def importRegularAndQuantize (m : BitSerialMatrix) (matrix th : Nat → Int)
    (nThres : Nat) (readColMajor : Bool) : Option BitSerialMatrix :=
  if m.issigned then none
  else some <|
    (List.range m.nrows).foldl
      (fun acc r =>
        (List.range m.ncols).foldl
          (fun acc2 c =>
            quantElem acc2
              (quantizeLoop th m.nrows r nThres nThres 0
                (srcElem matrix m.nrows m.ncols readColMajor r c)) r c)
          acc)
      m.clearAll

/-- Reconstruction of one logical element by `exportRegular`: bipolar bit 0
maps to `+1`/`-1`; otherwise set bits contribute `+2^b`, except the top bit of
a signed matrix which contributes `-2^b`. -/
def exportElem (m : BitSerialMatrix) (r c : Nat) : Int :=
  if m.isBipolar then (if m.get 0 r c then 1 else -1)
  else
    (List.range m.nbits).foldl
      (fun acc b =>
        if m.get b r c then
          (if b = m.nbits - 1 ∧ m.issigned then acc - 2 ^ b else acc + 2 ^ b)
        else acc) 0

/-- `exportRegular<T>(matrix)`: write every logical element to
`matrix[r*ncols + c]` of the destination buffer `out`. -/
def exportRegular (m : BitSerialMatrix) (out : Nat → Int) : Nat → Int :=
  (List.range m.nrows).foldl
    (fun f r =>
      (List.range m.ncols).foldl
        (fun g c => Function.update g (r * m.ncols + c) (m.exportElem r c)) f)
    out

end BitSerialMatrix

/-- The element range a `(nbits, signed)` matrix is meant to store: bipolar
matrices hold `{-1,+1}`, signed ones `[-2^(nbits-1), 2^(nbits-1))` in two's
complement, unsigned ones `[0, 2^nbits)`. -/
def inRange (issigned : Bool) (nbits : Nat) (v : Int) : Prop :=
  if nbits = 1 ∧ issigned = true then v = 1 ∨ v = -1
  else if issigned = true then -(2 ^ (nbits - 1)) ≤ v ∧ v < 2 ^ (nbits - 1)
  else 0 ≤ v ∧ v < 2 ^ nbits

instance (s : Bool) (n : Nat) (v : Int) : Decidable (inRange s n v) := by
  unfold inRange; infer_instance

/-- Shape well-formedness maintained by `alloc`: logical extents fit inside
the allocated ones and the allocated column count is a whole number of 64-bit
words. -/
def wfShape (m : BitSerialMatrix) : Prop :=
  m.nrows ≤ m.nrows_a ∧ m.ncols ≤ m.ncols_a ∧ m.ncols_a % 64 = 0

instance (m : BitSerialMatrix) : Decidable (wfShape m) := by
  unfold wfShape; infer_instance

/-- Padding penalty used throughout the block-size machinery:
`alignTo(rows, cand) - rows`. -/
def penalty (rows cand : Nat) : Nat := alignTo rows cand - rows

/-- The search loop of `finetuneBlockSize`, fuel-indexed.  The C++ loop runs
`ccand` from `bs_max` down in steps of `bs_div` while `ccand > bs_div`
(candidate `bs_div` itself is never examined), keeping the first candidate
divisible by `bs_div` whose penalty strictly improves on the best so far.
With `bs_div ≥ 1` a fuel of `ccand` dominates the trip count; for
`bs_div = 0` the C++ loop would not terminate (every claim supplies
`bs_div > 0`). -/
def ftLoop (rows bs_div : Nat) : Nat → Nat → Nat → Nat → Nat
  | 0, _, best_cand, _ => best_cand
  | fuel + 1, ccand, best_cand, min_penalty =>
    if bs_div < ccand then
      if ccand % bs_div = 0 then
        if penalty rows ccand < min_penalty then
          ftLoop rows bs_div fuel (ccand - bs_div) ccand (penalty rows ccand)
        else ftLoop rows bs_div fuel (ccand - bs_div) best_cand min_penalty
      else ftLoop rows bs_div fuel (ccand - bs_div) best_cand min_penalty
    else best_cand

/-- `finetuneBlockSize(rows, bs_max, bs_div)` from gemmbitserial.hpp. -/
def finetuneBlockSize (rows bs_max bs_div : Nat) : Nat :=
  ftLoop rows bs_div bs_max bs_max bs_max (penalty rows bs_max)

/-- The `GEMMContext` class: two bit-serial matrices, the chosen block sizes
and the (unpadded, uninitialised) `int32_t` result buffer. -/
structure GEMMContext where
  lhs : BitSerialMatrix
  rhs : BitSerialMatrix
  lhsBlock : Nat
  rhsBlock : Nat
  res : Nat → Int

/-- `allocGEMMContext_base`.  The `computeBlockSize` call works in 32-bit
`float` with `sqrt`, so its output is taken as the oracle pair `(cL, cR)`
(every property proved below holds for all values of the oracle).  The
fine-tune trigger `(alignTo(rows, block) - rows) > 0.1*rows`, a `double`
comparison in the C++, is modelled exactly as `rows < 10 * (alignTo(rows,
block) - rows)`.  `freshL`, `freshR`, `freshRes` are the indeterminate
contents of the three `new` allocations. -/
def allocGEMMContext_base (freshL freshR : Nat → Nat) (freshRes : Nat → Int)
    (lhsRows depth rhsRows lhsBits rhsBits : Nat) (lhsSigned rhsSigned : Bool)
    (regblock_lhs regblock_d regblock_rhs : Nat) (cL cR : Nat) : GEMMContext :=
  let lhsBlock :=
    if lhsRows < cL ∨ rhsRows < cR then alignTo lhsRows regblock_lhs
    else if lhsRows < 10 * (alignTo lhsRows cL - lhsRows) then
      finetuneBlockSize lhsRows cL regblock_lhs
    else cL
  let rhsBlock :=
    if lhsRows < cL ∨ rhsRows < cR then alignTo rhsRows regblock_rhs
    else if rhsRows < 10 * (alignTo rhsRows cR - rhsRows) then
      finetuneBlockSize rhsRows cR regblock_rhs
    else cR
  { lhs := BitSerialMatrix.alloc freshL lhsBits lhsRows depth lhsSigned
      lhsBlock (regblock_d * 64)
    rhs := BitSerialMatrix.alloc freshR rhsBits rhsRows depth rhsSigned
      rhsBlock (regblock_d * 64)
    lhsBlock := lhsBlock
    rhsBlock := rhsBlock
    res := freshRes }

/-- Modelled from the spec: `sumRows` (arch-generic.hpp is not among the
sources).  Per-row popcount of one bit-plane, computed over the packed
words of the row, as section 4.6 describes. -/
def rowPopcount (m : BitSerialMatrix) (bit row : Nat) : Nat :=
  (Finset.range m.wordsPerRow).sum
    (fun w => popcount (m.data (bit * m.wordsPerBitplane + row * m.wordsPerRow + w)))

/-- Modelled from the spec: the AND+popcount micro-kernel sum of section 4.5
(arch-generic.hpp is not among the sources):
`Σ_k popcount(lhs_bitplane[bL].row(i).word[k] AND rhs_bitplane[bR].row(j).word[k])`
over all `wordsPerRow` words (the two operands of a context share `ncols_a`,
hence `wordsPerRow`). -/
def andcard (lhs rhs : BitSerialMatrix) (bL i bR j : Nat) : Nat :=
  (Finset.range lhs.wordsPerRow).sum
    (fun w => popcount
      (lhs.data (bL * lhs.wordsPerBitplane + i * lhs.wordsPerRow + w) &&&
       rhs.data (bR * rhs.wordsPerBitplane + j * rhs.wordsPerRow + w)))

/-- Sign factor of a bit-plane: `-1` on the top plane of a signed operand,
`+1` otherwise. -/
def planeSign (issigned : Bool) (nbits b : Nat) : Int :=
  if issigned = true ∧ b = nbits - 1 then -1 else 1

/-- Modelled from the spec: one result entry of the GEMM kernel
(arch-generic.hpp is not among the sources).  Section 4.5: every bit-plane
pair contributes its AND-popcount weighted by `2^(bL+bR)` and sign-corrected
on the top planes of signed operands.  For bipolar operands the popcount sums
are converted to signed sums with the per-row popcounts (`sumRows`): a
bipolar row against an unsigned/two's-complement plane contributes
`(2*p_b - row_popcount(plane b)) * 2^b` per plane, and two bipolar rows give
`2*agree - k` over the `k = ncols` logical columns, where the agreement count
is reconstructed as `k - |a| - |b| + 2*p` from the AND-popcount `p` and the
row popcounts. -/
def gemmEntry (lhs rhs : BitSerialMatrix) (i j : Nat) : Int :=
  if lhs.isBipolar && rhs.isBipolar then
    2 * ((lhs.ncols : Int) - rowPopcount lhs 0 i - rowPopcount rhs 0 j
          + 2 * andcard lhs rhs 0 i 0 j) - (lhs.ncols : Int)
  else if lhs.isBipolar then
    (Finset.range rhs.nbits).sum (fun bR =>
      planeSign rhs.issigned rhs.nbits bR * 2 ^ bR *
        (2 * (andcard lhs rhs 0 i bR j : Int) - (rowPopcount rhs bR j : Int)))
  else if rhs.isBipolar then
    (Finset.range lhs.nbits).sum (fun bL =>
      planeSign lhs.issigned lhs.nbits bL * 2 ^ bL *
        (2 * (andcard lhs rhs bL i 0 j : Int) - (rowPopcount lhs bL i : Int)))
  else
    (Finset.range lhs.nbits).sum (fun bL =>
      (Finset.range rhs.nbits).sum (fun bR =>
        planeSign lhs.issigned lhs.nbits bL * planeSign rhs.issigned rhs.nbits bR *
          2 ^ (bL + bR) * (andcard lhs rhs bL i bR j : Int)))

/-- Modelled from the spec: the GEMM kernel `gemmBitSerial` writes
`gemmEntry i j` to `res[i * rhs.nrows + j]` for every `i < lhs.nrows`,
`j < rhs.nrows`, and touches nothing else (section 4.5: the kernel "writes
only to cells `i < lhs.nrows ∧ j < rhs.nrows`").  The `int32_t` accumulators
are idealised as unbounded integers, matching the section 7 contract that
callers keep `depth * 2^(lhsBits+rhsBits)` within 32 bits. -/
def gemmBitSerial (lhs rhs : BitSerialMatrix) (res : Nat → Int) : Nat → Int :=
  (List.range lhs.nrows).foldl
    (fun f i =>
      (List.range rhs.nrows).foldl
        (fun g j => Function.update g (i * rhs.nrows + j) (gemmEntry lhs rhs i j)) f)
    res

/-! The Roaring-bitmap prototype (`gemm-bitserial.{h,cpp}`).  A `Roaring`
bitmap over a universe of `n` indices is modelled as a `List Bool`;
`and_cardinality` is the size of the intersection.  `BitSerialVector` is a
list of bitmaps (one per bit position), `AccumulateElem`/`ResultElem` are
`int32_t`. -/

/-- `Roaring::and_cardinality`: size of the intersection of two bitmaps. -/
def and_cardinality (u v : List Bool) : Nat :=
  ((u.zip v).filter (fun p => p.1 && p.2)).length

/-- Wrap an unbounded integer into `int32_t` two's-complement range. -/
def wrapS32 (z : Int) : Int := (z + 2 ^ 31) % 2 ^ 32 - 2 ^ 31

/-- One accumulation step of the matrix-vector loops in gemm-bitserial.cpp:
`contr = and_cardinality << (Abit + xbit)` in `uint32_t` (wrapping), negated
when exactly one of the top signed planes is involved, added into the
`int32_t` accumulator (the `int32 += uint32` addition wraps modulo `2^32`,
which `wrapS32` captures). -/
def accumStep (crow x : List (List Bool)) (Asigned xsigned : Bool)
    (Abits xbits Abit xbit : Nat) (rowres : Int) : Int :=
  let contr : Nat := (and_cardinality (crow.getD Abit []) (x.getD xbit []) <<<
      (Abit + xbit)) % 2 ^ 32
  let neg_A := Asigned = true ∧ Abit = Abits - 1
  let neg_x := xsigned = true ∧ xbit = xbits - 1
  if neg_A ≠ neg_x then wrapS32 (rowres - contr) else wrapS32 (rowres + contr)

/-- The per-row accumulate of `bitSerialMatrixVector`(`Threshold`): the double
loop over `(Abit, xbit)` bit-plane pairs. -/
def rowAccum (crow x : List (List Bool)) (Asigned xsigned : Bool)
    (Abits xbits : Nat) : Int :=
  (List.range Abits).foldl
    (fun rr Abit =>
      (List.range xbits).foldl
        (fun rr2 xbit => accumStep crow x Asigned xsigned Abits xbits Abit xbit rr2)
        rr)
    0

/-- The count of crossed thresholds for one row: `Σ_t (v >= T[t][r])`. -/
def crossedCount (T : List (List Int)) (numThres r : Nat) (v : Int) : Int :=
  (List.range numThres).foldl
    (fun p t => p + if (T.getD t []).getD r 0 ≤ v then 1 else 0) 0

/-- The common row loop of `threshold` and `bitSerialMatrixVectorThreshold`
from gemm-bitserial.cpp, fuel-indexed: per row, emit `elem r` in the
one-threshold-channel-per-row case, otherwise throw.  The broadcast check
sits inside the loop, so with `rows = 0` nothing is ever thrown. -/
def rowLoopGo (elem : Nat → Int) (rows numThresChans : Nat) :
    Nat → Nat → Except String (List Int)
  | 0, _ => .ok []
  | fuel + 1, r =>
    if r < rows then
      if numThresChans = rows then
        match rowLoopGo elem rows numThresChans fuel (r + 1) with
        | .ok rest => .ok (elem r :: rest)
        | .error e => .error e
      else .error "Not yet implemented: threshold broadcast"
    else .ok []

/-- `threshold(x, T)` from gemm-bitserial.cpp.  `T[0]` is read before the
loop; an empty `T` would be undefined behaviour, so theorems require
`T ≠ []` (`getD`/`headD` stand in for `operator[]`). -/
def threshold (x : List Int) (T : List (List Int)) : Except String (List Int) :=
  rowLoopGo (fun r => crossedCount T T.length r (x.getD r 0))
    x.length (T.headD []).length x.length 0

/-- `bitSerialMatrixVectorThreshold(A, x, T, cols, Asigned, xsigned)` from
gemm-bitserial.cpp (`cols` is unused in the C++ as well): per row the
accumulate of `bitSerialMatrixVector` followed by in-loop thresholding.
`A[0]` is read before the loop; an empty `A` would be undefined behaviour,
so theorems require `A ≠ []`. -/
def bitSerialMatrixVectorThreshold (A : List (List (List Bool)))
    (x : List (List Bool)) (T : List (List Int)) (cols : Nat)
    (Asigned xsigned : Bool) : Except String (List Int) :=
  rowLoopGo
    (fun r => crossedCount T T.length r
      (rowAccum (A.getD r []) x Asigned xsigned (A.headD []).length x.length))
    A.length (T.headD []).length A.length 0

/-- The naive integer inner product `Σ_k lhs[i,k] * rhs[j,k]` the kernel is
checked against (`C = A * B^T`). -/
def naiveDot (A B : Nat → Int) (nrowsA nrowsB depth : Nat) (rcmA rcmB : Bool)
    (i j : Nat) : Int :=
  (Finset.range depth).sum (fun k =>
    BitSerialMatrix.srcElem A nrowsA depth rcmA i k *
    BitSerialMatrix.srcElem B nrowsB depth rcmB j k)

/-- Two matrices with identical shape fields (importers only rewrite `data`). -/
def sameShape (a b : BitSerialMatrix) : Prop :=
  a.issigned = b.issigned ∧ a.nbits = b.nbits ∧ a.nrows = b.nrows ∧
  a.ncols = b.ncols ∧ a.nrows_a = b.nrows_a ∧ a.ncols_a = b.ncols_a

/-- All live buffer words fit in a `uint64_t`. -/
def dataBound (m : BitSerialMatrix) : Prop :=
  ∀ i, i < m.nbits * m.wordsPerBitplane → m.data i < 2 ^ 64

/-! ### Arithmetic helpers -/

theorem alignTo_le (i af : Nat) : i ≤ alignTo i af := by
  unfold alignTo; split <;> omega

theorem alignTo_eq_of_dvd {i af : Nat} (h : af ∣ i) : alignTo i af = i := by
  unfold alignTo
  rcases Nat.eq_zero_or_pos af with h0 | h0
  · subst h0; simp at h; simp [h]
  · rw [Nat.mod_eq_zero_of_dvd h]; simp

theorem dvd_alignTo {af : Nat} (h : 0 < af) (i : Nat) : af ∣ alignTo i af := by
  unfold alignTo
  by_cases hm : i % af = 0
  · simp [hm]; exact Nat.dvd_of_mod_eq_zero hm
  · simp [hm]
    have h1 : i % af < af := Nat.mod_lt _ h
    have h2 : i + (af - i % af) = af * (i / af + 1) := by
      have hdm := Nat.div_add_mod i af
      have hx : af * (i / af + 1) = af * (i / af) + af := by ring
      omega
    exact ⟨i / af + 1, h2⟩

theorem alignTo_pos {i af : Nat} (h : 0 < i) : 0 < alignTo i af :=
  Nat.lt_of_lt_of_le h (alignTo_le i af)

theorem dvd_of_dvd_alignTo {d af : Nat} (hd : d ∣ af) (haf : 0 < af) (i : Nat) :
    d ∣ alignTo i af :=
  dvd_trans hd (dvd_alignTo haf i)

/-- Decomposition of `n % 2^(k+1)` into the low `k` bits and bit `k`. -/
theorem mod_two_pow_succ (n k : Nat) :
    n % 2 ^ (k + 1) = n % 2 ^ k + 2 ^ k * (n / 2 ^ k % 2) := by
  have hp : 0 < 2 ^ k := Nat.pos_pow_of_pos k (by omega)
  have h1 : n = 2 ^ k * (n / 2 ^ k) + n % 2 ^ k := (Nat.div_add_mod n (2 ^ k)).symm
  have h2 : n / 2 ^ k = 2 * (n / 2 ^ k / 2) + n / 2 ^ k % 2 :=
    (Nat.div_add_mod (n / 2 ^ k) 2).symm
  have h3 : n = 2 ^ (k + 1) * (n / 2 ^ k / 2) + (2 ^ k * (n / 2 ^ k % 2) + n % 2 ^ k) := by
    calc n = 2 ^ k * (2 * (n / 2 ^ k / 2) + n / 2 ^ k % 2) + n % 2 ^ k := by rw [← h2]; exact h1
    _ = 2 ^ (k + 1) * (n / 2 ^ k / 2) + (2 ^ k * (n / 2 ^ k % 2) + n % 2 ^ k) := by ring
  have h4 : 2 ^ k * (n / 2 ^ k % 2) + n % 2 ^ k < 2 ^ (k + 1) := by
    have hm2 : n / 2 ^ k % 2 < 2 := Nat.mod_lt _ (by omega)
    have hmk : n % 2 ^ k < 2 ^ k := Nat.mod_lt _ hp
    have : 2 ^ (k + 1) = 2 ^ k * 2 := by ring
    nlinarith [hm2, hmk]
  calc n % 2 ^ (k + 1)
      = (2 ^ (k + 1) * (n / 2 ^ k / 2) + (2 ^ k * (n / 2 ^ k % 2) + n % 2 ^ k)) % 2 ^ (k + 1) := by
        rw [← h3]
    _ = (2 ^ k * (n / 2 ^ k % 2) + n % 2 ^ k) % 2 ^ (k + 1) := by
        rw [Nat.mul_add_mod]
    _ = 2 ^ k * (n / 2 ^ k % 2) + n % 2 ^ k := Nat.mod_eq_of_lt h4
    _ = n % 2 ^ k + 2 ^ k * (n / 2 ^ k % 2) := by ring

/-- The low `k` bits of `n`, summed with their weights, give `n % 2^k`. -/
theorem sum_testBit_mod (n k : Nat) :
    (Finset.range k).sum (fun b => if n.testBit b then 2 ^ b else 0) = n % 2 ^ k := by
  induction k with
  | zero => simp [Nat.mod_one]
  | succ k ih =>
    rw [Finset.sum_range_succ, ih, mod_two_pow_succ]
    have ht : n.testBit k = decide (n / 2 ^ k % 2 = 1) := Nat.testBit_to_div_mod
    have hm2 : n / 2 ^ k % 2 < 2 := Nat.mod_lt _ (by omega)
    by_cases h : n / 2 ^ k % 2 = 1
    · simp [ht, h]
    · have : n / 2 ^ k % 2 = 0 := by omega
      simp [ht, this]

/-- Bits of `n` summed over any window containing all of `n`. -/
theorem sum_testBit_eq (n k : Nat) (h : n < 2 ^ k) :
    (Finset.range k).sum (fun b => if n.testBit b then 2 ^ b else 0) = n := by
  rw [sum_testBit_mod]; exact Nat.mod_eq_of_lt h

/-- `popcountAux` with enough fuel counts the set bits in any window
containing all of `n`. -/
theorem popcountAux_eq_sum (fuel : Nat) :
    ∀ n k, n ≤ fuel → n < 2 ^ k →
      popcountAux fuel n =
        (Finset.range k).sum (fun b => if n.testBit b then 1 else 0) := by
  induction fuel with
  | zero =>
    intro n k hn _
    interval_cases n
    simp [popcountAux, Nat.zero_testBit]
  | succ fuel ih =>
    intro n k hn hk
    by_cases h0 : n = 0
    · simp [popcountAux, h0, Nat.zero_testBit]
    · have hkpos : k ≠ 0 := by
        rintro rfl; simp at hk; omega
      obtain ⟨k', rfl⟩ : ∃ k', k = k' + 1 := ⟨k - 1, by omega⟩
      have hdiv : n / 2 ≤ fuel := by
        have : n / 2 < n := Nat.div_lt_self (by omega) (by omega)
        omega
      have hdk : n / 2 < 2 ^ k' := by
        have : n < 2 ^ k' * 2 := by
          have : (2 : Nat) ^ (k' + 1) = 2 ^ k' * 2 := by ring
          omega
        exact Nat.div_lt_of_lt_mul (by omega)
      rw [show popcountAux (fuel + 1) n = n % 2 + popcountAux fuel (n / 2) by
        simp [popcountAux, h0]]
      rw [ih (n / 2) k' hdiv hdk]
      rw [Finset.sum_range_succ']
      have hsucc : ∀ b, n.testBit (b + 1) = (n / 2).testBit b := fun b => Nat.testBit_succ n b
      simp only [hsucc]
      have ht0 : n.testBit 0 = decide (n % 2 = 1) := Nat.testBit_zero n
      have hm2 : n % 2 < 2 := Nat.mod_lt _ (by omega)
      by_cases h1 : n % 2 = 1
      · simp [ht0, h1]; omega
      · have : n % 2 = 0 := by omega
        simp [ht0, this]

/-- `popcount n` counts the set bits of `n` in any window containing them. -/
theorem popcount_eq_sum (n k : Nat) (h : n < 2 ^ k) :
    popcount n = (Finset.range k).sum (fun b => if n.testBit b then 1 else 0) :=
  popcountAux_eq_sum n n k le_rfl h

/-! ### Positional encoding -/

theorem encode_lt {x y A B : Nat} (hx : x < A) (hy : y < B) : x * B + y < A * B := by
  have h1 : x * B + y < (x + 1) * B := by
    have : (x + 1) * B = x * B + B := by ring
    omega
  have h2 : (x + 1) * B ≤ A * B := Nat.mul_le_mul_right B hx
  omega

theorem encode_inj {x y x' y' B : Nat} (hy : y < B) (hy' : y' < B)
    (h : x * B + y = x' * B + y') : x = x' ∧ y = y' := by
  have hB : 0 < B := by omega
  have hx : (x * B + y) / B = x := by
    rw [Nat.mul_comm x B, Nat.mul_add_div hB]
    simp [Nat.div_eq_of_lt hy]
  have hx' : (x' * B + y') / B = x' := by
    rw [Nat.mul_comm x' B, Nat.mul_add_div hB]
    simp [Nat.div_eq_of_lt hy']
  have hxx : x = x' := by rw [← hx, ← hx', h]
  subst hxx
  exact ⟨rfl, by omega⟩

/-! ### BitSerialMatrix layout lemmas -/

namespace BitSerialMatrix

theorem sameShape_refl (m : BitSerialMatrix) : sameShape m m :=
  ⟨rfl, rfl, rfl, rfl, rfl, rfl⟩

theorem sameShape_trans {a b c : BitSerialMatrix} (h1 : sameShape a b)
    (h2 : sameShape b c) : sameShape a c := by
  obtain ⟨e1, e2, e3, e4, e5, e6⟩ := h1
  obtain ⟨f1, f2, f3, f4, f5, f6⟩ := h2
  exact ⟨e1.trans f1, e2.trans f2, e3.trans f3, e4.trans f4, e5.trans f5, e6.trans f6⟩

theorem sameShape_set (m : BitSerialMatrix) (b r c : Nat) :
    sameShape (m.set b r c) m := sameShape_refl m

theorem sameShape_clearAll (m : BitSerialMatrix) :
    sameShape m.clearAll m := sameShape_refl m

theorem sameShape_foldl {α : Type} (W : BitSerialMatrix → α → BitSerialMatrix)
    (h : ∀ a x, sameShape (W a x) a) :
    ∀ (L : List α) (m : BitSerialMatrix), sameShape (L.foldl W m) m := by
  intro L
  induction L with
  | nil => intro m; exact sameShape_refl m
  | cons x L ih =>
    intro m
    exact sameShape_trans (ih (W m x)) (h m x)

/-- The word index of a live bit lies inside the live buffer. -/
theorem wordIdx_lt {m : BitSerialMatrix} {b r c : Nat} (hb : b < m.nbits)
    (hr : r < m.nrows_a) (hc : c < m.ncols_a) (hmod : m.ncols_a % 64 = 0) :
    m.wordIdx b r c < m.nbits * m.wordsPerBitplane := by
  have hcm : (64 : Nat) ∣ m.ncols_a := Nat.dvd_of_mod_eq_zero hmod
  have hcw : c / 64 < m.wordsPerRow := Nat.div_lt_div_of_lt_of_dvd hcm hc
  have hrow : r * m.wordsPerRow + c / 64 < m.wordsPerBitplane := encode_lt hr hcw
  have := encode_lt hb hrow
  unfold wordIdx
  omega

/-- Distinct live bit positions live at distinct (word, bit-offset) pairs. -/
theorem wordIdx_inj {m : BitSerialMatrix} {b r c b' r' c' : Nat}
    (hr : r < m.nrows_a) (hc : c < m.ncols_a) (hr' : r' < m.nrows_a)
    (hc' : c' < m.ncols_a) (hmod : m.ncols_a % 64 = 0)
    (hw : m.wordIdx b r c = m.wordIdx b' r' c') (hp : bitpos c = bitpos c') :
    b = b' ∧ r = r' ∧ c = c' := by
  have hcm : (64 : Nat) ∣ m.ncols_a := Nat.dvd_of_mod_eq_zero hmod
  have hcw : c / 64 < m.wordsPerRow := Nat.div_lt_div_of_lt_of_dvd hcm hc
  have hcw' : c' / 64 < m.wordsPerRow := Nat.div_lt_div_of_lt_of_dvd hcm hc'
  have hrow : r * m.wordsPerRow + c / 64 < m.wordsPerBitplane := encode_lt hr hcw
  have hrow' : r' * m.wordsPerRow + c' / 64 < m.wordsPerBitplane := encode_lt hr' hcw'
  unfold wordIdx at hw
  have hw2 : b * m.wordsPerBitplane + (r * m.wordsPerRow + c / 64) =
      b' * m.wordsPerBitplane + (r' * m.wordsPerRow + c' / 64) := by omega
  obtain ⟨hbb, hrest⟩ := encode_inj hrow hrow' hw2
  obtain ⟨hrr, hcc⟩ := encode_inj hcw hcw' hrest
  unfold bitpos at hp
  exact ⟨hbb, hrr, by omega⟩

/-- Reading back a `set`: the old bit, or-ed with whether the coordinates hit
the written (word, offset). -/
theorem get_set (m : BitSerialMatrix) (b r c b' r' c' : Nat) :
    (m.set b r c).get b' r' c' =
      (m.get b' r' c' ||
        (decide (m.wordIdx b r c = m.wordIdx b' r' c') && decide (bitpos c = bitpos c'))) := by
  show Nat.testBit (if m.wordIdx b' r' c' = m.wordIdx b r c then
      m.data (m.wordIdx b' r' c') ||| 1 <<< bitpos c
    else m.data (m.wordIdx b' r' c')) (bitpos c') = _
  by_cases hw : m.wordIdx b' r' c' = m.wordIdx b r c
  · rw [if_pos hw, Nat.testBit_or, Nat.shiftLeft_eq, one_mul, Nat.testBit_two_pow]
    simp [get, hw]
  · rw [if_neg hw]
    have hw' : ¬ m.wordIdx b r c = m.wordIdx b' r' c' := fun h => hw h.symm
    simp [get, hw']

/-- A cleared matrix has every live bit unset. -/
theorem get_clearAll {m : BitSerialMatrix} {b r c : Nat} (hb : b < m.nbits)
    (hr : r < m.nrows_a) (hc : c < m.ncols_a) (hmod : m.ncols_a % 64 = 0) :
    m.clearAll.get b r c = false := by
  have hlt := wordIdx_lt hb hr hc hmod
  show Nat.testBit (if m.wordIdx b r c < m.nbits * m.wordsPerBitplane then 0
    else m.data (m.wordIdx b r c)) (bitpos c) = false
  rw [if_pos hlt]
  exact Nat.zero_testBit _

theorem dataBound_set {m : BitSerialMatrix} (h : dataBound m) (b r c : Nat) :
    dataBound (m.set b r c) := by
  intro i hi
  show (if i = m.wordIdx b r c then m.data i ||| 1 <<< bitpos c else m.data i) < 2 ^ 64
  split
  · refine Nat.or_lt_two_pow (h i hi) ?_
    rw [Nat.shiftLeft_eq, one_mul]
    exact Nat.pow_lt_pow_right (by omega) (by unfold bitpos; omega)
  · exact h i hi

theorem dataBound_clearAll (m : BitSerialMatrix) : dataBound m.clearAll := by
  intro i hi
  have hi' : i < m.nbits * m.wordsPerBitplane := hi
  show (if i < m.nbits * m.wordsPerBitplane then 0 else m.data i) < 2 ^ 64
  rw [if_pos hi']
  exact Nat.pos_pow_of_pos _ (by omega)

/-- `get_set` with the coordinates resolved through injectivity. -/
theorem get_set_iff {m : BitSerialMatrix} {b r c b' r' c' : Nat}
    (hmod : m.ncols_a % 64 = 0) (hr : r < m.nrows_a) (hc : c < m.ncols_a)
    (hr' : r' < m.nrows_a) (hc' : c' < m.ncols_a) :
    (m.set b r c).get b' r' c' =
      (m.get b' r' c' || (decide (b' = b) && decide (r' = r) && decide (c' = c))) := by
  rw [get_set]
  congr 1
  by_cases h1 : b' = b <;> by_cases h2 : r' = r <;> by_cases h3 : c' = c
  · subst h1; subst h2; subst h3; simp
  all_goals {
    have hrhs : (decide (b' = b) && decide (r' = r) && decide (c' = c)) = false := by
      simp [h1, h2, h3]
    rw [hrhs]
    by_cases hw : m.wordIdx b r c = m.wordIdx b' r' c'
    · by_cases hp : bitpos c = bitpos c'
      · obtain ⟨e1, e2, e3⟩ := wordIdx_inj hr hc hr' hc' hmod hw hp
        exfalso; omega
      · simp [hp]
    · simp [hw] }

end BitSerialMatrix

theorem contains_range (n x : Nat) : (List.range n).contains x = decide (x < n) := by
  by_cases h : x < n
  · have h1 : (List.range n).contains x = true :=
      List.contains_iff_exists_mem_beq.mpr ⟨x, List.mem_range.mpr h, by simp⟩
    simp [h1, h]
  · cases hcb : (List.range n).contains x with
    | false => simp [h]
    | true =>
      exfalso
      rcases List.contains_iff_exists_mem_beq.mp hcb with ⟨y, hy, hxy⟩
      have hxy' : x = y := by simpa using hxy
      subst hxy'
      exact absurd (List.mem_range.mp hy) h

namespace BitSerialMatrix

/-- Reading back after the conditional-set fold of `writeByteBits` over an
arbitrary plane list. -/
theorem foldl_condSet_get (byte r c b' r' c' : Nat) :
    ∀ (L : List Nat) (m : BitSerialMatrix), m.ncols_a % 64 = 0 →
      r < m.nrows_a → c < m.ncols_a → r' < m.nrows_a → c' < m.ncols_a →
      ((L.foldl (fun acc b => if byte.testBit b then acc.set b r c else acc) m).get b' r' c') =
        (m.get b' r' c' ||
          (L.contains b' && byte.testBit b' && decide (r' = r) && decide (c' = c))) := by
  intro L
  induction L with
  | nil => intro m _ _ _ _ _; simp
  | cons b0 L ih =>
    intro m hmod hr hc hr' hc'
    rw [List.foldl_cons]
    by_cases hbit : byte.testBit b0
    · rw [if_pos hbit]
      rw [ih (m.set b0 r c) hmod hr hc hr' hc']
      rw [get_set_iff hmod hr hc hr' hc']
      by_cases h1 : b' = b0
      · subst h1
        by_cases h2 : r' = r <;> by_cases h3 : c' = c <;>
          simp [hbit, h2, h3, List.contains_cons, Bool.or_assoc, Bool.or_comm,
            Bool.or_left_comm]
      · simp [h1, List.contains_cons, Bool.or_assoc]
    · rw [if_neg hbit]
      rw [ih m hmod hr hc hr' hc']
      by_cases h1 : b' = b0
      · subst h1; simp [hbit, List.contains_cons]
      · simp [h1, List.contains_cons]

/-- Reading back a `writeByteBits`: the old bit, or bit `b'` of the byte when
the coordinates hit the written element. -/
theorem writeByteBits_get {m : BitSerialMatrix} (byte r c : Nat) {b' r' c' : Nat}
    (hmod : m.ncols_a % 64 = 0) (hr : r < m.nrows_a) (hc : c < m.ncols_a)
    (hr' : r' < m.nrows_a) (hc' : c' < m.ncols_a) (hb' : b' < m.nbits) :
    (m.writeByteBits byte r c).get b' r' c' =
      (m.get b' r' c' || (byte.testBit b' && decide (r' = r) && decide (c' = c))) := by
  unfold writeByteBits
  rw [foldl_condSet_get byte r c b' r' c' (List.range m.nbits) m hmod hr hc hr' hc']
  rw [contains_range]
  simp [hb']

/-- Reading back an `importElem`: the old bit, or the element's encoded bit
when the coordinates hit the written element. -/
theorem importElem_get {m : BitSerialMatrix} (v : Int) (r c : Nat) {b' r' c' : Nat}
    (hmod : m.ncols_a % 64 = 0) (hr : r < m.nrows_a) (hc : c < m.ncols_a)
    (hr' : r' < m.nrows_a) (hc' : c' < m.ncols_a) (hb' : b' < m.nbits) :
    (m.importElem v r c).get b' r' c' =
      (m.get b' r' c' ||
        (importBit m.issigned m.nbits v b' && decide (r' = r) && decide (c' = c))) := by
  unfold importElem importBit isBipolar
  by_cases hbip : (m.nbits == 1 && m.issigned) = true
  · rw [if_pos hbip, if_pos hbip]
    by_cases hv : (0 : Int) < v
    · rw [if_pos hv, get_set_iff hmod hr hc hr' hc']
      simp [hv]
      by_cases h0 : b' = 0 <;> simp [h0]
    · rw [if_neg hv]
      simp [hv]
  · rw [if_neg hbip, if_neg hbip]
    exact writeByteBits_get _ r c hmod hr hc hr' hc' hb'

/-- Reading back a `quantElem`. -/
theorem quantElem_get {m : BitSerialMatrix} (q : Int) (r c : Nat) {b' r' c' : Nat}
    (hmod : m.ncols_a % 64 = 0) (hr : r < m.nrows_a) (hc : c < m.ncols_a)
    (hr' : r' < m.nrows_a) (hc' : c' < m.ncols_a) (hb' : b' < m.nbits) :
    (m.quantElem q r c).get b' r' c' =
      (m.get b' r' c' ||
        (((q % 256).toNat % 256).testBit b' && decide (r' = r) && decide (c' = c))) :=
  writeByteBits_get _ r c hmod hr hc hr' hc' hb'

theorem sameShape_writeByteBits (m : BitSerialMatrix) (byte r c : Nat) :
    sameShape (m.writeByteBits byte r c) m := by
  unfold writeByteBits
  exact sameShape_foldl _ (fun a b => by
    split
    · exact sameShape_set _ _ _ _
    · exact sameShape_refl _) _ _

theorem sameShape_importElem (m : BitSerialMatrix) (v : Int) (r c : Nat) :
    sameShape (m.importElem v r c) m := by
  unfold importElem
  split
  · split
    · exact sameShape_set _ _ _ _
    · exact sameShape_refl _
  · exact sameShape_writeByteBits _ _ _ _

theorem sameShape_quantElem (m : BitSerialMatrix) (q : Int) (r c : Nat) :
    sameShape (m.quantElem q r c) m :=
  sameShape_writeByteBits _ _ _ _

/-- Reading back after a per-element writer is folded along one row. -/
theorem foldRow_get (W : BitSerialMatrix → Nat → Nat → BitSerialMatrix)
    (eb : Nat → Nat → Nat → Bool) (m0 : BitSerialMatrix)
    (hshape : ∀ a r c, sameShape (W a r c) a)
    (hget : ∀ (a : BitSerialMatrix) (r c b' r' c' : Nat), sameShape a m0 →
      r' < m0.nrows_a → c' < m0.ncols_a → b' < m0.nbits → r < m0.nrows → c < m0.ncols →
      (W a r c).get b' r' c' =
        (a.get b' r' c' || (eb r c b' && decide (r' = r) && decide (c' = c))))
    (b' r' c' : Nat) (hr' : r' < m0.nrows_a) (hc' : c' < m0.ncols_a)
    (hb' : b' < m0.nbits) :
    ∀ (Lc : List Nat) (a : BitSerialMatrix) (r : Nat), sameShape a m0 →
      (∀ c ∈ Lc, c < m0.ncols) → r < m0.nrows →
      ((Lc.foldl (fun acc2 c => W acc2 r c) a).get b' r' c') =
        (a.get b' r' c' || (Lc.contains c' && eb r c' b' && decide (r' = r))) := by
  intro Lc
  induction Lc with
  | nil => intro a r _ _ _; simp
  | cons c0 Lc ih =>
    intro a r hs hbnd hrm
    rw [List.foldl_cons]
    rw [ih (W a r c0) r (sameShape_trans (hshape a r c0) hs)
      (fun c hc => hbnd c (List.mem_cons_of_mem c0 hc)) hrm]
    rw [hget a r c0 b' r' c' hs hr' hc' hb' hrm (hbnd c0 (List.mem_cons_self c0 Lc))]
    by_cases h1 : c' = c0
    · subst h1
      by_cases h2 : r' = r <;> cases heb : eb r c' b' <;>
        simp [h2, heb, List.contains_cons, Bool.or_assoc, Bool.or_comm,
          Bool.or_left_comm]
    · simp [h1, List.contains_cons, Bool.or_assoc]

/-- Reading back after a per-element writer is folded over all logical rows
and columns: the base bit, or the element bit when the coordinates address a
logical cell. -/
theorem foldElems_get (W : BitSerialMatrix → Nat → Nat → BitSerialMatrix)
    (eb : Nat → Nat → Nat → Bool) (m0 : BitSerialMatrix)
    (hshape : ∀ a r c, sameShape (W a r c) a)
    (hget : ∀ (a : BitSerialMatrix) (r c b' r' c' : Nat), sameShape a m0 →
      r' < m0.nrows_a → c' < m0.ncols_a → b' < m0.nbits → r < m0.nrows → c < m0.ncols →
      (W a r c).get b' r' c' =
        (a.get b' r' c' || (eb r c b' && decide (r' = r) && decide (c' = c))))
    (b' r' c' : Nat) (hr' : r' < m0.nrows_a) (hc' : c' < m0.ncols_a)
    (hb' : b' < m0.nbits) :
    ∀ (Lr : List Nat) (a : BitSerialMatrix), sameShape a m0 →
      (∀ r ∈ Lr, r < m0.nrows) →
      ((Lr.foldl
          (fun acc r => (List.range m0.ncols).foldl (fun acc2 c => W acc2 r c) acc)
          a).get b' r' c') =
        (a.get b' r' c' ||
          (Lr.contains r' && decide (c' < m0.ncols) && eb r' c' b')) := by
  intro Lr
  induction Lr with
  | nil => intro a _ _; simp
  | cons r0 Lr ih =>
    intro a hs hbnd
    rw [List.foldl_cons]
    have hs0 : sameShape ((List.range m0.ncols).foldl (fun acc2 c => W acc2 r0 c) a) m0 :=
      sameShape_trans
        (sameShape_foldl (fun acc2 c => W acc2 r0 c) (fun a2 c => hshape a2 r0 c)
          (List.range m0.ncols) a) hs
    rw [ih _ hs0 (fun r hr => hbnd r (List.mem_cons_of_mem r0 hr))]
    rw [foldRow_get W eb m0 hshape hget b' r' c' hr' hc' hb' (List.range m0.ncols) a r0
      hs (fun c hc => List.mem_range.mp hc) (hbnd r0 (List.mem_cons_self r0 Lr))]
    rw [contains_range]
    by_cases h1 : r' = r0
    · subst h1
      by_cases h2 : c' < m0.ncols <;> cases heb : eb r' c' b' <;>
        simp [h2, heb, List.contains_cons, Bool.or_assoc, Bool.or_comm,
          Bool.or_left_comm]
    · simp [h1, List.contains_cons, Bool.or_assoc]

/-- The central description of `importRegular`: live bit `(b', r', c')` of the
imported matrix is exactly the encoded bit of source element `(r', c')`, and
`false` on every padded position. -/
theorem importRegular_get (m : BitSerialMatrix) (M : Nat → Int) (rcm : Bool)
    {b' r' c' : Nat} (hmod : m.ncols_a % 64 = 0) (hra : m.nrows ≤ m.nrows_a)
    (hca : m.ncols ≤ m.ncols_a) (hb' : b' < m.nbits) (hr' : r' < m.nrows_a)
    (hc' : c' < m.ncols_a) :
    (m.importRegular M rcm).get b' r' c' =
      (decide (r' < m.nrows) && decide (c' < m.ncols) &&
        importBit m.issigned m.nbits (srcElem M m.nrows m.ncols rcm r' c') b') := by
  unfold importRegular
  rw [foldElems_get
    (fun a r c => importElem a (srcElem M m.nrows m.ncols rcm r c) r c)
    (fun r c b => importBit m.issigned m.nbits (srcElem M m.nrows m.ncols rcm r c) b)
    m (fun a r c => sameShape_importElem a _ r c)
    (fun a r c b2 r2 c2 hs hr2 hc2 hb2 hrm hcm => by
      obtain ⟨es, eb2, enr, enc, era, eca⟩ := hs
      have h := importElem_get (m := a) (srcElem M m.nrows m.ncols rcm r c) r c
        (by rw [eca]; exact hmod) (by rw [era]; omega) (by rw [eca]; omega)
        (by rw [era]; exact hr2) (by rw [eca]; exact hc2) (by rw [eb2]; exact hb2)
      rw [h, es, eb2])
    b' r' c' hr' hc' hb' (List.range m.nrows) m.clearAll
    (sameShape_clearAll m) (fun r hr => List.mem_range.mp hr)]
  rw [get_clearAll hb' hr' hc' hmod, contains_range]
  simp

/-- The central description of `importRegularAndQuantize` on an unsigned
matrix: live bit `(b', r', c')` is bit `b'` of the `uint8_t` cast of the
quantised element, and `false` on every padded position. -/
theorem importRegularAndQuantize_get (m : BitSerialMatrix) (M th : Nat → Int)
    (nThres : Nat) (rcm : Bool) {b' r' c' : Nat} (hmod : m.ncols_a % 64 = 0)
    (hra : m.nrows ≤ m.nrows_a) (hca : m.ncols ≤ m.ncols_a) (hb' : b' < m.nbits)
    (hr' : r' < m.nrows_a) (hc' : c' < m.ncols_a) {mq : BitSerialMatrix}
    (hok : m.importRegularAndQuantize M th nThres rcm = some mq) :
    mq.get b' r' c' =
      (decide (r' < m.nrows) && decide (c' < m.ncols) &&
        (((quantizeLoop th m.nrows r' nThres nThres 0
            (srcElem M m.nrows m.ncols rcm r' c')) % 256).toNat % 256).testBit b') := by
  unfold importRegularAndQuantize at hok
  by_cases hs : m.issigned = true
  · rw [if_pos hs] at hok; exact absurd hok (by simp)
  · rw [if_neg hs] at hok
    have hmq : mq = (List.range m.nrows).foldl
        (fun acc r =>
          (List.range m.ncols).foldl
            (fun acc2 c =>
              quantElem acc2
                (quantizeLoop th m.nrows r nThres nThres 0
                  (srcElem M m.nrows m.ncols rcm r c)) r c)
            acc)
        m.clearAll := by
      cases hok; rfl
    subst hmq
    rw [foldElems_get
      (fun a r c => quantElem a
        (quantizeLoop th m.nrows r nThres nThres 0
          (srcElem M m.nrows m.ncols rcm r c)) r c)
      (fun r c b => (((quantizeLoop th m.nrows r nThres nThres 0
          (srcElem M m.nrows m.ncols rcm r c)) % 256).toNat % 256).testBit b)
      m (fun a r c => sameShape_quantElem a _ r c)
      (fun a r c b2 r2 c2 hsh hr2 hc2 hb2 hrm hcm => by
        obtain ⟨es, eb2, enr, enc, era, eca⟩ := hsh
        exact quantElem_get (m := a) _ r c
          (by rw [eca]; exact hmod) (by rw [era]; omega) (by rw [eca]; omega)
          (by rw [era]; exact hr2) (by rw [eca]; exact hc2) (by rw [eb2]; exact hb2))
      b' r' c' hr' hc' hb' (List.range m.nrows) m.clearAll
      (sameShape_clearAll m) (fun r hr => List.mem_range.mp hr)]
    rw [get_clearAll hb' hr' hc' hmod, contains_range]
    simp

end BitSerialMatrix

/-! ### Write-buffer characterisation for the row-major output loops -/

theorem foldUpd_apply (val : Nat → Int) (A : Nat) :
    ∀ (n : Nat) (g : Nat → Int) (c : Nat), c < n →
      ((List.range n).foldl (fun g2 c2 => Function.update g2 (A + c2) (val c2)) g)
        (A + c) = val c := by
  intro n
  induction n with
  | zero => intro g c hc; omega
  | succ n ih =>
    intro g c hc
    rw [List.range_succ, List.foldl_append, List.foldl_cons, List.foldl_nil]
    by_cases h : c = n
    · subst h; rw [Function.update_same]
    · rw [Function.update_noteq (by omega)]
      exact ih g c (by omega)

theorem foldUpd_apply_ne (val : Nat → Int) (A : Nat) :
    ∀ (n : Nat) (g : Nat → Int) (k : Nat), (∀ c, c < n → k ≠ A + c) →
      ((List.range n).foldl (fun g2 c2 => Function.update g2 (A + c2) (val c2)) g) k =
        g k := by
  intro n
  induction n with
  | zero => intro g k _; simp
  | succ n ih =>
    intro g k hk
    rw [List.range_succ, List.foldl_append, List.foldl_cons, List.foldl_nil]
    rw [Function.update_noteq (hk n (by omega))]
    exact ih g k (fun c hc => hk c (by omega))

/-- The nested row-major write loop of `exportRegular` and `gemmBitSerial`
puts `val r c` at offset `r*C + c`. -/
theorem foldWrite_apply (val : Nat → Nat → Int) (C : Nat) :
    ∀ (R : Nat) (g : Nat → Int) (r c : Nat), r < R → c < C →
      ((List.range R).foldl
        (fun f r2 =>
          (List.range C).foldl
            (fun g2 c2 => Function.update g2 (r2 * C + c2) (val r2 c2)) f)
        g) (r * C + c) = val r c := by
  intro R
  induction R with
  | zero => intro g r c hr _; omega
  | succ R ih =>
    intro g r c hr hc
    rw [List.range_succ, List.foldl_append, List.foldl_cons, List.foldl_nil]
    by_cases h : r = R
    · subst h
      exact foldUpd_apply (val r) (r * C) C _ c hc
    · have hne : ∀ c2, c2 < C → r * C + c ≠ R * C + c2 := by
        intro c2 hc2
        have h1 : (r + 1) * C = r * C + C := by ring
        have h2 : (r + 1) * C ≤ R * C := Nat.mul_le_mul_right C (by omega)
        omega
      rw [foldUpd_apply_ne (val R) (R * C) C _ _ hne]
      exact ih g r c (by omega) hc

namespace BitSerialMatrix

/-- `exportRegular` writes `exportElem r c` at `matrix[r*ncols + c]`. -/
theorem exportRegular_apply (m : BitSerialMatrix) (out : Nat → Int) {r c : Nat}
    (hr : r < m.nrows) (hc : c < m.ncols) :
    m.exportRegular out (r * m.ncols + c) = m.exportElem r c := by
  unfold exportRegular
  exact foldWrite_apply (fun r2 c2 => m.exportElem r2 c2) m.ncols m.nrows out r c hr hc

end BitSerialMatrix

/-! ### Decoding the two's-complement byte intermediate -/

theorem foldl_range_add (g : Nat → Int) (n : Nat) : ∀ (a : Int),
    (List.range n).foldl (fun acc b => acc + g b) a = a + (Finset.range n).sum g := by
  induction n with
  | zero => intro a; simp
  | succ n ih =>
    intro a
    rw [List.range_succ, List.foldl_append, List.foldl_cons, List.foldl_nil, ih,
      Finset.sum_range_succ]
    ring

/-- `exportRegular`'s per-element fold as a signed weighted bit sum. -/
theorem exportElem_eq_sum (m : GemmBitserial.BitSerialMatrix) (r c : Nat)
    (hbip : m.isBipolar = false) :
    m.exportElem r c =
      (Finset.range m.nbits).sum (fun b =>
        if m.get b r c then
          (if b = m.nbits - 1 ∧ m.issigned = true then -(2 ^ b : Int) else 2 ^ b)
        else 0) := by
  unfold BitSerialMatrix.exportElem
  rw [if_neg (by simp [hbip])]
  have hfun : (fun (acc : Int) b =>
      if m.get b r c then
        (if b = m.nbits - 1 ∧ m.issigned = true then acc - 2 ^ b else acc + 2 ^ b)
      else acc) =
      fun (acc : Int) b => acc +
        (if m.get b r c then
          (if b = m.nbits - 1 ∧ m.issigned = true then -(2 ^ b : Int) else 2 ^ b)
        else 0) := by
    funext acc b
    by_cases h1 : m.get b r c = true
    · by_cases h2 : b = m.nbits - 1 ∧ m.issigned = true
      · rw [if_pos h1, if_pos h1, if_pos h2, if_pos h2]; ring
      · rw [if_pos h1, if_pos h1, if_neg h2, if_neg h2]
    · rw [if_neg h1, if_neg h1]; ring
  rw [hfun, foldl_range_add]
  simp

/-- Casting the weighted-bit sum of a byte into the integers. -/
theorem sum_testBit_cast (B k : Nat) :
    (Finset.range k).sum (fun b => if B.testBit b then (2 ^ b : Int) else 0) =
      ((Finset.range k).sum (fun b => if B.testBit b then 2 ^ b else 0) : Nat) := by
  push_cast
  exact Finset.sum_congr rfl (fun b _ => by by_cases h : B.testBit b <;> simp [h])

namespace BitSerialMatrix

/-- Decoding the `importRegular` byte of an in-range element recovers the
element (for `1 ≤ nbits ≤ 8` and non-bipolar configurations). -/
theorem decode_importByte (issigned : Bool) (nbits : Nat) (v : Int)
    (h1 : 1 ≤ nbits) (h8 : nbits ≤ 8) (hnb : ¬(nbits = 1 ∧ issigned = true))
    (hr : inRange issigned nbits v) :
    (Finset.range nbits).sum (fun b =>
      if (importByte issigned nbits v).testBit b then
        (if b = nbits - 1 ∧ issigned = true then -(2 ^ b : Int) else 2 ^ b)
      else 0) = v := by
  have h256 : (2 : Int) ^ nbits ≤ 256 := by
    calc (2 : Int) ^ nbits ≤ 2 ^ 8 := pow_le_pow_right₀ (by omega) h8
    _ = 256 := by norm_num
  cases issigned with
  | false =>
    unfold inRange at hr
    rw [if_neg (by simp), if_neg (by simp)] at hr
    obtain ⟨hv0, hvlt⟩ := hr
    have hv256 : v < 256 := lt_of_lt_of_le hvlt h256
    have hpc : ((2 ^ nbits : Nat) : Int) = (2 : Int) ^ nbits := by push_cast; ring
    have hbyte : importByte false nbits v = v.toNat := by
      unfold importByte
      rw [if_neg (by simp)]
      rw [Int.emod_eq_of_lt hv0 hv256]
      omega
    rw [hbyte]
    have hstep : ∀ b, (if v.toNat.testBit b then
        (if b = nbits - 1 ∧ (false : Bool) = true then -(2 ^ b : Int) else 2 ^ b)
      else 0) = (if v.toNat.testBit b then (2 ^ b : Int) else 0) := fun b => by
      by_cases h : v.toNat.testBit b <;> simp [h]
    rw [Finset.sum_congr rfl (fun b _ => hstep b), sum_testBit_cast,
      sum_testBit_eq v.toNat nbits (by omega)]
    exact Int.toNat_of_nonneg hv0
  | true =>
    have hn2 : 2 ≤ nbits := by
      rcases Nat.lt_or_ge nbits 2 with h | h
      · exact absurd ⟨by omega, rfl⟩ hnb
      · exact h
    obtain ⟨K, rfl⟩ : ∃ K, nbits = K + 1 := ⟨nbits - 1, by omega⟩
    have hK1 : 1 ≤ K := by omega
    have hK7 : K ≤ 7 := by omega
    have hKsub : K + 1 - 1 = K := by omega
    have hKpowN : (2 : Nat) ^ K ≤ 128 := by
      calc (2 : Nat) ^ K ≤ 2 ^ 7 := Nat.pow_le_pow_right (by omega) hK7
      _ = 128 := by norm_num
    have hKpowZ : ((2 : Nat) ^ K : Int) = (2 : Int) ^ K := by push_cast; ring
    unfold inRange at hr
    rw [if_neg (fun h => by omega), if_pos rfl, hKsub] at hr
    obtain ⟨hv0, hvlt⟩ := hr
    rcases Int.lt_or_le v 0 with hneg | hpos
    · -- negative value: byte = 2^K + (v + 2^K)
      have hw0 : (0 : Int) ≤ v + 2 ^ K := by omega
      have hwlt : v + 2 ^ K < 2 ^ K := by omega
      have hbyte : importByte true (K + 1) v = 2 ^ K + (v + 2 ^ K).toNat := by
        unfold importByte
        rw [if_pos ⟨rfl, hneg⟩, hKsub]
        rw [Int.emod_eq_of_lt hw0 (by omega)]
        have hm1 : (2 : Nat) ^ K % 256 = 2 ^ K := Nat.mod_eq_of_lt (by omega)
        rw [hm1]
        have hm2 : (v + 2 ^ K).toNat < 2 ^ K := by omega
        exact Nat.mod_eq_of_lt (by omega)
      rw [hbyte, Finset.sum_range_succ]
      have htop : (2 ^ K + (v + 2 ^ K).toNat).testBit K = true := by
        rw [Nat.testBit_two_pow_add_eq]
        rw [Nat.testBit_lt_two_pow (by omega)]
        rfl
      rw [htop, if_pos rfl, if_pos ⟨by omega, rfl⟩]
      have hlow : ∀ b, b < K →
          (if (2 ^ K + (v + 2 ^ K).toNat).testBit b then
            (if b = K + 1 - 1 ∧ (true : Bool) = true then -(2 ^ b : Int) else 2 ^ b)
          else 0) =
          (if (2 ^ K + (v + 2 ^ K).toNat).testBit b then (2 ^ b : Int) else 0) := by
        intro b hb
        by_cases h : (2 ^ K + (v + 2 ^ K).toNat).testBit b = true
        · rw [if_pos h, if_pos h,
            if_neg (fun hh : b = K + 1 - 1 ∧ (true : Bool) = true =>
              absurd hh.1 (by omega))]
        · rw [if_neg h, if_neg h]
      rw [Finset.sum_congr rfl (fun b hb => hlow b (Finset.mem_range.mp hb)),
        sum_testBit_cast, sum_testBit_mod]
      have hmod : (2 ^ K + (v + 2 ^ K).toNat) % 2 ^ K = (v + 2 ^ K).toNat := by
        rw [Nat.add_mod_left]
        exact Nat.mod_eq_of_lt (by omega)
      rw [hmod]
      have hcast : ((v + 2 ^ K).toNat : Int) = v + 2 ^ K := Int.toNat_of_nonneg hw0
      rw [hcast]
      ring
    · -- non-negative value: byte = v, top bit clear
      have hbyte : importByte true (K + 1) v = v.toNat := by
        unfold importByte
        rw [if_neg (fun h => by omega)]
        rw [Int.emod_eq_of_lt hpos (by omega)]
        omega
      rw [hbyte, Finset.sum_range_succ]
      have htop : v.toNat.testBit K = false := Nat.testBit_lt_two_pow (by omega)
      rw [htop]
      have hlow : ∀ b, b < K →
          (if v.toNat.testBit b then
            (if b = K + 1 - 1 ∧ (true : Bool) = true then -(2 ^ b : Int) else 2 ^ b)
          else 0) = (if v.toNat.testBit b then (2 ^ b : Int) else 0) := by
        intro b hb
        by_cases h : v.toNat.testBit b = true
        · rw [if_pos h, if_pos h,
            if_neg (fun hh : b = K + 1 - 1 ∧ (true : Bool) = true =>
              absurd hh.1 (by omega))]
        · rw [if_neg h, if_neg h]
      rw [Finset.sum_congr rfl (fun b hb => hlow b (Finset.mem_range.mp hb)),
        sum_testBit_cast, sum_testBit_eq v.toNat K (by omega)]
      simp
      omega

theorem sameShape_importRegular (m : BitSerialMatrix) (M : Nat → Int)
    (rcm : Bool) : sameShape (m.importRegular M rcm) m := by
  unfold importRegular
  refine sameShape_trans (sameShape_foldl _ ?_ _ _) (sameShape_clearAll m)
  intro a r
  exact sameShape_foldl _ (fun a2 c => sameShape_importElem a2 _ r c) _ _

theorem importBit_nonbipolar {issigned : Bool} {nbits : Nat}
    (h : (nbits == 1 && issigned) = false) (v : Int) (b : Nat) :
    importBit issigned nbits v b = (importByte issigned nbits v).testBit b := by
  unfold importBit
  rw [if_neg (by simp [h])]

/-- One element read back after `importRegular`: the round trip is the
identity on in-range elements when `1 ≤ nbits ≤ 8`. -/
theorem exportElem_importRegular (m : BitSerialMatrix) (M : Nat → Int)
    (rcm : Bool) {r c : Nat} (hmod : m.ncols_a % 64 = 0)
    (hra : m.nrows ≤ m.nrows_a) (hca : m.ncols ≤ m.ncols_a)
    (h1 : 1 ≤ m.nbits) (h8 : m.nbits ≤ 8) (hrr : r < m.nrows) (hcc : c < m.ncols)
    (hin : inRange m.issigned m.nbits (srcElem M m.nrows m.ncols rcm r c)) :
    (m.importRegular M rcm).exportElem r c = srcElem M m.nrows m.ncols rcm r c := by
  obtain ⟨es, eb, enr, enc, era, eca⟩ := sameShape_importRegular m M rcm
  have hget : ∀ b, b < m.nbits →
      (m.importRegular M rcm).get b r c =
        importBit m.issigned m.nbits (srcElem M m.nrows m.ncols rcm r c) b := by
    intro b hb
    rw [importRegular_get m M rcm hmod hra hca hb (lt_of_lt_of_le hrr hra)
      (lt_of_lt_of_le hcc hca)]
    simp [hrr, hcc]
  by_cases hbip : m.isBipolar = true
  · have hb1 : m.nbits = 1 ∧ m.issigned = true := by
      unfold isBipolar at hbip
      simpa using hbip
    have hbipi : (m.importRegular M rcm).isBipolar = true := by
      unfold isBipolar
      rw [eb, es]
      exact hbip
    have hbipX := hbip
    unfold isBipolar at hbipX
    have hib : importBit m.issigned m.nbits (srcElem M m.nrows m.ncols rcm r c) 0 =
        decide (0 < srcElem M m.nrows m.ncols rcm r c) := by
      unfold importBit
      rw [if_pos hbipX]
      simp
    unfold exportElem
    rw [if_pos hbipi, hget 0 (by omega), hib]
    unfold inRange at hin
    rw [if_pos hb1] at hin
    rcases hin with hv | hv
    · rw [hv]; norm_num
    · rw [hv]; norm_num
  · have hbipf : m.isBipolar = false := by
      revert hbip; cases m.isBipolar <;> simp
    have hbipi : (m.importRegular M rcm).isBipolar = false := by
      unfold isBipolar at *
      rw [eb, es]
      exact hbipf
    have hnb : ¬(m.nbits = 1 ∧ m.issigned = true) := by
      unfold isBipolar at hbipf
      intro h
      rw [h.1, h.2] at hbipf
      simp at hbipf
    rw [exportElem_eq_sum _ r c hbipi, eb, es]
    rw [Finset.sum_congr rfl (fun b hb => by
      rw [hget b (Finset.mem_range.mp hb),
        importBit_nonbipolar (by unfold isBipolar at hbipf; exact hbipf)])]
    exact decode_importByte m.issigned m.nbits _ h1 h8 hnb hin

/-- The full round trip of C2 at the buffer level. -/
theorem exportRegular_importRegular (m : BitSerialMatrix) (M : Nat → Int)
    (rcm : Bool) (out : Nat → Int) {r c : Nat} (hmod : m.ncols_a % 64 = 0)
    (hra : m.nrows ≤ m.nrows_a) (hca : m.ncols ≤ m.ncols_a)
    (h1 : 1 ≤ m.nbits) (h8 : m.nbits ≤ 8) (hrr : r < m.nrows) (hcc : c < m.ncols)
    (hin : inRange m.issigned m.nbits (srcElem M m.nrows m.ncols rcm r c)) :
    (m.importRegular M rcm).exportRegular out (r * m.ncols + c) =
      srcElem M m.nrows m.ncols rcm r c := by
  obtain ⟨es, eb, enr, enc, era, eca⟩ := sameShape_importRegular m M rcm
  have happ := exportRegular_apply (m.importRegular M rcm) out
    (r := r) (c := c) (by rw [enr]; exact hrr) (by rw [enc]; exact hcc)
  rw [enc] at happ
  rw [happ]
  exact exportElem_importRegular m M rcm hmod hra hca h1 h8 hrr hcc hin

theorem importByte_lt (issigned : Bool) (nbits : Nat) (v : Int) :
    importByte issigned nbits v < 256 := by
  unfold importByte
  split <;> omega

end BitSerialMatrix

/-! ### Claims C2, C4, C10 -/

/-- C2 counterexample: with `nbits = 9` the unsigned element `256` is in
range for `(9, unsigned)`, yet `exportRegular` after `importRegular` returns
`0` for it — the round trip fails because the importer narrows every element
through `uint8_t`.  (Refutes the claim as stated, which quantifies over every
`nbits`.) -/
theorem gemm_C2_counterexample :
    inRange false 9 256 ∧
    ((BitSerialMatrix.alloc (fun _ => 0) 9 1 1 false 1 64).importRegular
        (fun _ => 256) false).exportRegular (fun _ => 0) 0 = 0 ∧
    (256 : Int) ≠ 0 := by
  refine ⟨by decide, by decide, by decide⟩

/-- C2 (amended: `1 ≤ nbits ≤ 8`; the importer narrows through `uint8_t`, so
wider precisions do not round-trip): for every well-shaped BitSerialMatrix
and every source matrix with elements in range for `(nbits, signed)`,
`exportRegular` after `importRegular` reproduces the source exactly, with the
source read row-major or column-major. -/
theorem gemm_C2_roundtrip (m : GemmBitserial.BitSerialMatrix) (M : Nat → Int)
    (rcm : Bool) (out : Nat → Int) (hmod : m.ncols_a % 64 = 0)
    (hra : m.nrows ≤ m.nrows_a) (hca : m.ncols ≤ m.ncols_a)
    (h1 : 1 ≤ m.nbits) (h8 : m.nbits ≤ 8)
    (hin : ∀ r, r < m.nrows → ∀ c, c < m.ncols →
      inRange m.issigned m.nbits
        (BitSerialMatrix.srcElem M m.nrows m.ncols rcm r c)) :
    ∀ r, r < m.nrows → ∀ c, c < m.ncols →
      (m.importRegular M rcm).exportRegular out (r * m.ncols + c) =
        BitSerialMatrix.srcElem M m.nrows m.ncols rcm r c := by
  intro r hr c hc
  exact BitSerialMatrix.exportRegular_importRegular m M rcm out hmod hra hca h1 h8
    hr hc (hin r hr c hc)

/-- Witness for the amended C2: a signed 3-bit 2x2 matrix with elements in
`[-4, 4)` survives the round trip. -/
theorem gemm_C2_roundtrip_witness :
    ((BitSerialMatrix.alloc (fun _ => 5) 3 2 2 true 1 64).ncols_a % 64 = 0 ∧
      (∀ r, r < 2 → ∀ c, c < 2 → inRange true 3
        (BitSerialMatrix.srcElem
          (fun i => if i = 0 then -4 else if i = 1 then 3 else if i = 2 then 0 else -1)
          2 2 false r c))) ∧
    (∀ r, r < (BitSerialMatrix.alloc (fun _ => 5) 3 2 2 true 1 64).nrows →
      ∀ c, c < (BitSerialMatrix.alloc (fun _ => 5) 3 2 2 true 1 64).ncols →
      ((BitSerialMatrix.alloc (fun _ => 5) 3 2 2 true 1 64).importRegular
          (fun i => if i = 0 then -4 else if i = 1 then 3 else if i = 2 then 0 else -1)
          false).exportRegular (fun _ => 0)
        (r * (BitSerialMatrix.alloc (fun _ => 5) 3 2 2 true 1 64).ncols + c) =
        BitSerialMatrix.srcElem
          (fun i => if i = 0 then -4 else if i = 1 then 3 else if i = 2 then 0 else -1)
          2 2 false r c) :=
  ⟨⟨by decide, by decide⟩,
    gemm_C2_roundtrip (BitSerialMatrix.alloc (fun _ => 5) 3 2 2 true 1 64)
      (fun i => if i = 0 then -4 else if i = 1 then 3 else if i = 2 then 0 else -1)
      false (fun _ => 0) (by decide) (by decide) (by decide) (by decide) (by decide)
      (by decide)⟩

/-- C4: after `importRegular`, and after any successful
`importRegularAndQuantize`, every bit at a padded position (row at or past
`nrows`, or column at or past `ncols`, within the allocated extents) is 0,
on every bit-plane. -/
theorem gemm_C4_padding (m : GemmBitserial.BitSerialMatrix) (M th : Nat → Int)
    (nThres : Nat) (rcm : Bool) (hmod : m.ncols_a % 64 = 0)
    (hra : m.nrows ≤ m.nrows_a) (hca : m.ncols ≤ m.ncols_a) :
    ∀ b, b < m.nbits → ∀ r2, r2 < m.nrows_a → ∀ c2, c2 < m.ncols_a →
      (m.nrows ≤ r2 ∨ m.ncols ≤ c2) →
      ((m.importRegular M rcm).get b r2 c2 = false ∧
        ∀ mq, m.importRegularAndQuantize M th nThres rcm = some mq →
          mq.get b r2 c2 = false) := by
  intro b hb r2 hr2 c2 hc2 hpad
  constructor
  · rw [BitSerialMatrix.importRegular_get m M rcm hmod hra hca hb hr2 hc2]
    rcases hpad with h | h
    · simp [Nat.not_lt_of_le h]
    · simp [Nat.not_lt_of_le h]
  · intro mq hok
    rw [BitSerialMatrix.importRegularAndQuantize_get m M th nThres rcm hmod hra hca
      hb hr2 hc2 hok]
    rcases hpad with h | h
    · simp [Nat.not_lt_of_le h]
    · simp [Nat.not_lt_of_le h]

/-- Witness for C4: a 2-bit unsigned 1x3 matrix allocated with row alignment
2 and column alignment 64 has zero bits in its padded row and columns after
both import operations. -/
theorem gemm_C4_padding_witness :
    ((BitSerialMatrix.alloc (fun _ => 7) 2 1 3 false 2 64).ncols_a % 64 = 0 ∧
      (BitSerialMatrix.alloc (fun _ => 7) 2 1 3 false 2 64).nrows ≤
        (BitSerialMatrix.alloc (fun _ => 7) 2 1 3 false 2 64).nrows_a) ∧
    (∀ b, b < (BitSerialMatrix.alloc (fun _ => 7) 2 1 3 false 2 64).nbits →
      ∀ r2, r2 < (BitSerialMatrix.alloc (fun _ => 7) 2 1 3 false 2 64).nrows_a →
      ∀ c2, c2 < (BitSerialMatrix.alloc (fun _ => 7) 2 1 3 false 2 64).ncols_a →
      ((BitSerialMatrix.alloc (fun _ => 7) 2 1 3 false 2 64).nrows ≤ r2 ∨
        (BitSerialMatrix.alloc (fun _ => 7) 2 1 3 false 2 64).ncols ≤ c2) →
      (((BitSerialMatrix.alloc (fun _ => 7) 2 1 3 false 2 64).importRegular
          (fun _ => 3) false).get b r2 c2 = false ∧
        ∀ mq, (BitSerialMatrix.alloc (fun _ => 7) 2 1 3 false 2 64).importRegularAndQuantize
            (fun _ => 3) (fun _ => 1) 2 false = some mq →
          mq.get b r2 c2 = false)) :=
  ⟨⟨by decide, by decide⟩,
    gemm_C4_padding (BitSerialMatrix.alloc (fun _ => 7) 2 1 3 false 2 64)
      (fun _ => 3) (fun _ => 1) 2 false (by decide) (by decide) (by decide)⟩

/-- C10: `importRegular` narrows every non-bipolar element through an 8-bit
unsigned intermediate, so for `nbits > 8` the bit-planes 8 through
`nbits - 1` stay entirely zero after an import. -/
theorem gemm_C10_high_planes (m : GemmBitserial.BitSerialMatrix) (M : Nat → Int)
    (rcm : Bool) (hmod : m.ncols_a % 64 = 0) (hra : m.nrows ≤ m.nrows_a)
    (hca : m.ncols ≤ m.ncols_a) (hn8 : 8 < m.nbits) :
    ∀ b, 8 ≤ b → b < m.nbits → ∀ r2, r2 < m.nrows_a → ∀ c2, c2 < m.ncols_a →
      (m.importRegular M rcm).get b r2 c2 = false := by
  intro b hb8 hb r2 hr2 c2 hc2
  rw [BitSerialMatrix.importRegular_get m M rcm hmod hra hca hb hr2 hc2]
  have hnb : (m.nbits == 1 && m.issigned) = false := by
    have : m.nbits ≠ 1 := by omega
    simp [this]
  rw [BitSerialMatrix.importBit_nonbipolar hnb]
  have hbyte := BitSerialMatrix.importByte_lt m.issigned m.nbits
    (BitSerialMatrix.srcElem M m.nrows m.ncols rcm r2 c2)
  have h2b : (256 : Nat) ≤ 2 ^ b := by
    calc (256 : Nat) = 2 ^ 8 := by norm_num
    _ ≤ 2 ^ b := Nat.pow_le_pow_right (by omega) hb8
  have htb : (BitSerialMatrix.importByte m.issigned m.nbits
      (BitSerialMatrix.srcElem M m.nrows m.ncols rcm r2 c2)).testBit b = false :=
    Nat.testBit_lt_two_pow (lt_of_lt_of_le hbyte h2b)
  rw [htb]
  simp

/-! ### The fine-tuner loop invariant (claim C6) -/

/-- Full characterisation of `ftLoop`: the result is the incoming best or a
visited candidate; its penalty never exceeds the incoming best's, with ties
resolved to the incoming best; and it is optimal over every still-to-be-visited
candidate (`bs_div < c ≤ ccand`, divisible by `bs_div`, on the arithmetic
progression through `ccand`), with ties resolved to the larger candidate. -/
theorem ftLoop_spec (rows bs_div : Nat) (hdiv : 0 < bs_div) :
    ∀ fuel ccand best minp, ccand ≤ fuel → ccand ≤ best →
      minp = penalty rows best →
      ((ftLoop rows bs_div fuel ccand best minp = best ∨
          (bs_div < ftLoop rows bs_div fuel ccand best minp ∧
            ftLoop rows bs_div fuel ccand best minp ≤ ccand ∧
            ftLoop rows bs_div fuel ccand best minp % bs_div = 0 ∧
            (ccand - ftLoop rows bs_div fuel ccand best minp) % bs_div = 0)) ∧
        penalty rows (ftLoop rows bs_div fuel ccand best minp) ≤
          penalty rows best ∧
        (penalty rows (ftLoop rows bs_div fuel ccand best minp) =
            penalty rows best → ftLoop rows bs_div fuel ccand best minp = best) ∧
        (∀ c, bs_div < c → c ≤ ccand → c % bs_div = 0 →
          (ccand - c) % bs_div = 0 →
          penalty rows (ftLoop rows bs_div fuel ccand best minp) ≤
            penalty rows c ∧
          (penalty rows (ftLoop rows bs_div fuel ccand best minp) =
              penalty rows c → c ≤ ftLoop rows bs_div fuel ccand best minp))) := by
  intro fuel
  induction fuel with
  | zero =>
    intro ccand best minp hcf hcb hmp
    refine ⟨Or.inl rfl, le_rfl, fun _ => rfl, ?_⟩
    intro c hc1 hc2 _ _
    exfalso; omega
  | succ fuel ih =>
    intro ccand best minp hcf hcb hmp
    have hunf : ftLoop rows bs_div (fuel + 1) ccand best minp =
        (if bs_div < ccand then
          if ccand % bs_div = 0 then
            if penalty rows ccand < minp then
              ftLoop rows bs_div fuel (ccand - bs_div) ccand (penalty rows ccand)
            else ftLoop rows bs_div fuel (ccand - bs_div) best minp
          else ftLoop rows bs_div fuel (ccand - bs_div) best minp
        else best) := rfl
    by_cases hgt : bs_div < ccand
    · by_cases hdv : ccand % bs_div = 0
      · by_cases hpen : penalty rows ccand < minp
        · -- strictly better candidate: best becomes ccand
          rw [hunf, if_pos hgt, if_pos hdv, if_pos hpen]
          obtain ⟨ha, hb2, hc2, hd2⟩ :=
            ih (ccand - bs_div) ccand (penalty rows ccand) (by omega) (by omega) rfl
          refine ⟨?_, ?_, ?_, ?_⟩
          · rcases ha with h | h
            · refine Or.inr ?_
              rw [h]
              exact ⟨hgt, le_rfl, hdv, by simp⟩
            · refine Or.inr ⟨h.1, by omega, h.2.2.1, ?_⟩
              have hdsub : bs_div ∣ (ccand - bs_div -
                  ftLoop rows bs_div fuel (ccand - bs_div) ccand (penalty rows ccand)) :=
                Nat.dvd_of_mod_eq_zero h.2.2.2
              have heq : ccand - ftLoop rows bs_div fuel (ccand - bs_div) ccand
                  (penalty rows ccand) =
                  (ccand - bs_div - ftLoop rows bs_div fuel (ccand - bs_div) ccand
                    (penalty rows ccand)) + bs_div := by omega
              rw [heq]
              exact Nat.mod_eq_zero_of_dvd (Nat.dvd_add hdsub dvd_rfl)
          · omega
          · intro h; exfalso; omega
          · intro c hq1 hq2 hq3 hq4
            by_cases hcc : c = ccand
            · subst hcc
              exact ⟨hb2, fun h => le_of_eq (hc2 h).symm⟩
            · have hlt : c < ccand := by omega
              have hge : bs_div ≤ ccand - c :=
                Nat.le_of_dvd (by omega) (Nat.dvd_of_mod_eq_zero hq4)
              have hqle : c ≤ ccand - bs_div := by omega
              have hq4' : (ccand - bs_div - c) % bs_div = 0 := by
                have h1 : bs_div ∣ (ccand - c) := Nat.dvd_of_mod_eq_zero hq4
                have h2 : ccand - bs_div - c = (ccand - c) - bs_div := by omega
                rw [h2]
                exact Nat.mod_eq_zero_of_dvd (Nat.dvd_sub' h1 dvd_rfl)
              exact hd2 c hq1 hqle hq3 hq4'
        · -- candidate not better: keep best
          rw [hunf, if_pos hgt, if_pos hdv, if_neg hpen]
          obtain ⟨ha, hb2, hc2, hd2⟩ :=
            ih (ccand - bs_div) best minp (by omega) (by omega) hmp
          refine ⟨?_, hb2, hc2, ?_⟩
          · rcases ha with h | h
            · exact Or.inl h
            · refine Or.inr ⟨h.1, by omega, h.2.2.1, ?_⟩
              have hdsub : bs_div ∣ (ccand - bs_div -
                  ftLoop rows bs_div fuel (ccand - bs_div) best minp) :=
                Nat.dvd_of_mod_eq_zero h.2.2.2
              have heq : ccand - ftLoop rows bs_div fuel (ccand - bs_div) best minp =
                  (ccand - bs_div - ftLoop rows bs_div fuel (ccand - bs_div) best minp)
                    + bs_div := by omega
              rw [heq]
              exact Nat.mod_eq_zero_of_dvd (Nat.dvd_add hdsub dvd_rfl)
          · intro c hq1 hq2 hq3 hq4
            by_cases hcc : c = ccand
            · subst hcc
              have hle : penalty rows best ≤ penalty rows c := by omega
              refine ⟨hb2.trans hle, ?_⟩
              intro hties
              have h1 : penalty rows (ftLoop rows bs_div fuel (c - bs_div) best minp) =
                  penalty rows best := by omega
              have h2 := hc2 h1
              omega
            · have hlt : c < ccand := by omega
              have hge : bs_div ≤ ccand - c :=
                Nat.le_of_dvd (by omega) (Nat.dvd_of_mod_eq_zero hq4)
              have hqle : c ≤ ccand - bs_div := by omega
              have hq4' : (ccand - bs_div - c) % bs_div = 0 := by
                have h1 : bs_div ∣ (ccand - c) := Nat.dvd_of_mod_eq_zero hq4
                have h2 : ccand - bs_div - c = (ccand - c) - bs_div := by omega
                rw [h2]
                exact Nat.mod_eq_zero_of_dvd (Nat.dvd_sub' h1 dvd_rfl)
              exact hd2 c hq1 hqle hq3 hq4'
      · -- candidate not divisible: skip
        rw [hunf, if_pos hgt, if_neg hdv]
        obtain ⟨ha, hb2, hc2, hd2⟩ :=
          ih (ccand - bs_div) best minp (by omega) (by omega) hmp
        refine ⟨?_, hb2, hc2, ?_⟩
        · rcases ha with h | h
          · exact Or.inl h
          · refine Or.inr ⟨h.1, by omega, h.2.2.1, ?_⟩
            have hdsub : bs_div ∣ (ccand - bs_div -
                ftLoop rows bs_div fuel (ccand - bs_div) best minp) :=
              Nat.dvd_of_mod_eq_zero h.2.2.2
            have heq : ccand - ftLoop rows bs_div fuel (ccand - bs_div) best minp =
                (ccand - bs_div - ftLoop rows bs_div fuel (ccand - bs_div) best minp)
                  + bs_div := by omega
            rw [heq]
            exact Nat.mod_eq_zero_of_dvd (Nat.dvd_add hdsub dvd_rfl)
        · intro c hq1 hq2 hq3 hq4
          have hcc : c ≠ ccand := fun h => by rw [h] at hq3; exact hdv hq3
          have hlt : c < ccand := by omega
          have hge : bs_div ≤ ccand - c :=
            Nat.le_of_dvd (by omega) (Nat.dvd_of_mod_eq_zero hq4)
          have hqle : c ≤ ccand - bs_div := by omega
          have hq4' : (ccand - bs_div - c) % bs_div = 0 := by
            have h1 : bs_div ∣ (ccand - c) := Nat.dvd_of_mod_eq_zero hq4
            have h2 : ccand - bs_div - c = (ccand - c) - bs_div := by omega
            rw [h2]
            exact Nat.mod_eq_zero_of_dvd (Nat.dvd_sub' h1 dvd_rfl)
          exact hd2 c hq1 hqle hq3 hq4'
    · -- loop exit
      rw [hunf, if_neg hgt]
      refine ⟨Or.inl rfl, le_rfl, fun _ => rfl, ?_⟩
      intro c hc1 hc2 _ _
      exfalso; omega

/-! ### Claim C6 -/

/-- C6 counterexample: with `rows = 3`, `bs_max = 6`, `bs_div = 3` the C++
loop condition `ccand > bs_div` stops before examining candidate `bs_div`
itself, so `finetuneBlockSize` returns 6 (penalty 3) although the claim's
candidate set contains 3, a multiple of `bs_div` in `[bs_div, bs_max]` with
penalty 0. -/
theorem gemm_C6_counterexample :
    finetuneBlockSize 3 6 3 = 6 ∧ 3 % 3 = 0 ∧ 3 ≤ 6 ∧
    penalty 3 3 < penalty 3 6 := by
  refine ⟨by decide, by decide, by decide, by decide⟩

/-- C6 (amended): among `bs_max` itself and the candidates
`bs_max - i*bs_div` that are strictly greater than `bs_div` (candidate
`bs_div` is never examined) and divisible by `bs_div`, `finetuneBlockSize`
returns one minimising the padding penalty `alignTo(rows, cand) - rows`,
breaking ties in favour of the largest candidate; in particular the returned
block's penalty never exceeds the penalty of `bs_max`. -/
theorem gemm_C6_finetune (rows bs_max bs_div : Nat) (hrows : 0 < rows)
    (hdiv : 0 < bs_div) (hle : bs_div ≤ bs_max) :
    (finetuneBlockSize rows bs_max bs_div = bs_max ∨
      (bs_div < finetuneBlockSize rows bs_max bs_div ∧
        finetuneBlockSize rows bs_max bs_div ≤ bs_max ∧
        finetuneBlockSize rows bs_max bs_div % bs_div = 0 ∧
        (bs_max - finetuneBlockSize rows bs_max bs_div) % bs_div = 0)) ∧
    penalty rows (finetuneBlockSize rows bs_max bs_div) ≤ penalty rows bs_max ∧
    (penalty rows (finetuneBlockSize rows bs_max bs_div) = penalty rows bs_max →
      finetuneBlockSize rows bs_max bs_div = bs_max) ∧
    (∀ c, bs_div < c → c ≤ bs_max → c % bs_div = 0 →
      (bs_max - c) % bs_div = 0 →
      penalty rows (finetuneBlockSize rows bs_max bs_div) ≤ penalty rows c ∧
      (penalty rows (finetuneBlockSize rows bs_max bs_div) = penalty rows c →
        c ≤ finetuneBlockSize rows bs_max bs_div)) :=
  ftLoop_spec rows bs_div hdiv bs_max bs_max bs_max (penalty rows bs_max)
    le_rfl le_rfl rfl

/-- Witness for the amended C6 at `rows = 5`, `bs_max = 6`, `bs_div = 2`. -/
theorem gemm_C6_finetune_witness :
    ((0 : Nat) < 5 ∧ (0 : Nat) < 2 ∧ (2 : Nat) ≤ 6) ∧
    ((finetuneBlockSize 5 6 2 = 6 ∨
      (2 < finetuneBlockSize 5 6 2 ∧ finetuneBlockSize 5 6 2 ≤ 6 ∧
        finetuneBlockSize 5 6 2 % 2 = 0 ∧ (6 - finetuneBlockSize 5 6 2) % 2 = 0)) ∧
    penalty 5 (finetuneBlockSize 5 6 2) ≤ penalty 5 6 ∧
    (penalty 5 (finetuneBlockSize 5 6 2) = penalty 5 6 →
      finetuneBlockSize 5 6 2 = 6) ∧
    (∀ c, 2 < c → c ≤ 6 → c % 2 = 0 → (6 - c) % 2 = 0 →
      penalty 5 (finetuneBlockSize 5 6 2) ≤ penalty 5 c ∧
      (penalty 5 (finetuneBlockSize 5 6 2) = penalty 5 c →
        c ≤ finetuneBlockSize 5 6 2))) :=
  ⟨⟨by decide, by decide, by decide⟩,
    gemm_C6_finetune 5 6 2 (by decide) (by decide) (by decide)⟩

/-! ### The quantisation loop (claim C7) -/

namespace BitSerialMatrix

theorem quantizeLoop_exit (th : Nat → Int) (nrows r nThres : Nat) (fuel t : Nat)
    (v : Int) (h : ¬ t < nThres) :
    quantizeLoop th nrows r nThres fuel t v = v := by
  cases fuel with
  | zero => rfl
  | succ fuel =>
    show (if t < nThres then _ else v) = v
    rw [if_neg h]

theorem quantSpecIdx_exit (th : Nat → Int) (nrows r nThres : Nat) (v : Int)
    (fuel t : Nat) (h : ¬ t < nThres) :
    quantSpecIdx th nrows r nThres v fuel t = nThres := by
  cases fuel with
  | zero => rfl
  | succ fuel =>
    show (if t < nThres then _ else nThres) = nThres
    rw [if_neg h]

/-- The threshold-search loop computes exactly the smallest crossed threshold
index (or `nThres`), as long as it starts strictly inside the index range —
i.e. whenever `nThres ≥ 1`. -/
theorem quantizeLoop_eq_spec (th : Nat → Int) (nrows r nThres : Nat) (v : Int) :
    ∀ fuel t, t < nThres → nThres - t ≤ fuel →
      quantizeLoop th nrows r nThres fuel t v =
        ((quantSpecIdx th nrows r nThres v fuel t : Nat) : Int) := by
  intro fuel
  induction fuel with
  | zero => intro t ht hf; exfalso; omega
  | succ fuel ih =>
    intro t ht hf
    show (if t < nThres then
        if v ≤ th (t * nrows + r) then ((t : Nat) : Int)
        else quantizeLoop th nrows r nThres fuel (t + 1)
          (if t = nThres - 1 then (t : Int) + 1 else v)
      else v) =
      ((if t < nThres then
          if v ≤ th (t * nrows + r) then t
          else quantSpecIdx th nrows r nThres v fuel (t + 1)
        else nThres : Nat) : Int)
    rw [if_pos ht, if_pos ht]
    by_cases hcross : v ≤ th (t * nrows + r)
    · rw [if_pos hcross, if_pos hcross]
    · rw [if_neg hcross, if_neg hcross]
      by_cases hlast : t = nThres - 1
      · rw [if_pos hlast]
        rw [quantizeLoop_exit th nrows r nThres fuel (t + 1) _ (by omega)]
        rw [quantSpecIdx_exit th nrows r nThres v fuel (t + 1) (by omega)]
        have : t + 1 = nThres := by omega
        rw [← this]
        push_cast
        ring
      · rw [if_neg hlast]
        exact ih (t + 1) (by omega) (by omega)

/-! ### Claim C7 -/

/-- C7 counterexample: the claim covers every `nThres ≥ 0`, but with
`nThres = 0` the quantisation loop never runs and the element is stored
unquantised instead of being replaced by `nThres = 0`: importing `1` into a
1-bit unsigned BSM with zero thresholds sets bit 0, while the
bit-decomposition of the claimed value `0` has no set bits. -/
theorem gemm_C7_counterexample :
    ((BitSerialMatrix.alloc (fun _ => 0) 1 1 1 false 1 64).importRegularAndQuantize
        (fun _ => 1) (fun _ => 0) 0 false).map (fun mq => mq.get 0 0 0) =
      some true ∧
    Nat.testBit 0 0 = false := by
  refine ⟨by decide, by decide⟩

/-- C7 (amended: `nThres ≥ 1`, and the stored planes are the low `nbits` bits
of the 8-bit truncation of the quantised index): `importRegularAndQuantize`
fails on a signed matrix, and on an unsigned one stores, for each logical
element, the smallest threshold index `t` with `src ≤ thresholds[t][row]`
(or `nThres` when none), bit-decomposed through the `uint8_t` cast.  With
`nThres = 0` the element is instead stored unquantised. -/
theorem gemm_C7_quantize (m : GemmBitserial.BitSerialMatrix) (M th : Nat → Int)
    (nThres : Nat) (rcm : Bool) (hmod : m.ncols_a % 64 = 0)
    (hra : m.nrows ≤ m.nrows_a) (hca : m.ncols ≤ m.ncols_a) (hn : 1 ≤ nThres)
    (hmono : ∀ r, r < m.nrows → ∀ t2, t2 < nThres → ∀ t, t ≤ t2 →
      th (t * m.nrows + r) ≤ th (t2 * m.nrows + r)) :
    (m.issigned = true →
      m.importRegularAndQuantize M th nThres rcm = none) ∧
    (∀ mq, m.importRegularAndQuantize M th nThres rcm = some mq →
      ∀ r, r < m.nrows → ∀ c, c < m.ncols → ∀ b, b < m.nbits →
        mq.get b r c =
          (quantSpecIdx th m.nrows r nThres
              (BitSerialMatrix.srcElem M m.nrows m.ncols rcm r c)
              nThres 0 % 256).testBit b) := by
  constructor
  · intro hs
    unfold BitSerialMatrix.importRegularAndQuantize
    rw [if_pos hs]
  · intro mq hok r hr c hc b hb
    rw [BitSerialMatrix.importRegularAndQuantize_get m M th nThres rcm hmod hra hca
      hb (lt_of_lt_of_le hr hra) (lt_of_lt_of_le hc hca) hok]
    rw [quantizeLoop_eq_spec th m.nrows r nThres
      (BitSerialMatrix.srcElem M m.nrows m.ncols rcm r c) nThres 0 (by omega)
      (by omega)]
    have hcast : (((quantSpecIdx th m.nrows r nThres
        (BitSerialMatrix.srcElem M m.nrows m.ncols rcm r c) nThres 0 : Nat) : Int)
          % 256).toNat % 256 =
        quantSpecIdx th m.nrows r nThres
          (BitSerialMatrix.srcElem M m.nrows m.ncols rcm r c) nThres 0 % 256 := by
      omega
    rw [hcast]
    simp [hr, hc]

/-- Witness for the amended C7: one unsigned 2-bit element `5` against the
non-decreasing thresholds `(3, 7)` quantises to index 1. -/
theorem gemm_C7_quantize_witness :
    ((BitSerialMatrix.alloc (fun _ => 4) 2 1 1 false 1 64).ncols_a % 64 = 0 ∧
      (1 : Nat) ≤ 2 ∧
      (∀ r, r < (BitSerialMatrix.alloc (fun _ => 4) 2 1 1 false 1 64).nrows →
        ∀ t2, t2 < 2 → ∀ t, t ≤ t2 →
          (fun i => if i = 0 then (3 : Int) else 7)
              (t * (BitSerialMatrix.alloc (fun _ => 4) 2 1 1 false 1 64).nrows + r) ≤
            (fun i => if i = 0 then (3 : Int) else 7)
              (t2 * (BitSerialMatrix.alloc (fun _ => 4) 2 1 1 false 1 64).nrows + r))) ∧
    (((BitSerialMatrix.alloc (fun _ => 4) 2 1 1 false 1 64).issigned = true →
      (BitSerialMatrix.alloc (fun _ => 4) 2 1 1 false 1 64).importRegularAndQuantize
        (fun _ => 5) (fun i => if i = 0 then (3 : Int) else 7) 2 false = none) ∧
    (∀ mq, (BitSerialMatrix.alloc (fun _ => 4) 2 1 1 false 1 64).importRegularAndQuantize
        (fun _ => 5) (fun i => if i = 0 then (3 : Int) else 7) 2 false = some mq →
      ∀ r, r < (BitSerialMatrix.alloc (fun _ => 4) 2 1 1 false 1 64).nrows →
      ∀ c, c < (BitSerialMatrix.alloc (fun _ => 4) 2 1 1 false 1 64).ncols →
      ∀ b, b < (BitSerialMatrix.alloc (fun _ => 4) 2 1 1 false 1 64).nbits →
        mq.get b r c =
          (quantSpecIdx (fun i => if i = 0 then (3 : Int) else 7)
              (BitSerialMatrix.alloc (fun _ => 4) 2 1 1 false 1 64).nrows r 2
              (srcElem (fun _ => 5)
                (BitSerialMatrix.alloc (fun _ => 4) 2 1 1 false 1 64).nrows
                (BitSerialMatrix.alloc (fun _ => 4) 2 1 1 false 1 64).ncols false r c)
              2 0 % 256).testBit b)) :=
  ⟨⟨by decide, by decide, by decide⟩,
    gemm_C7_quantize (BitSerialMatrix.alloc (fun _ => 4) 2 1 1 false 1 64)
      (fun _ => 5) (fun i => if i = 0 then (3 : Int) else 7) 2 false (by decide)
      (by decide) (by decide) (by decide) (by decide)⟩

end BitSerialMatrix

/-! ### Claim C3 -/

/-- C3 counterexample: `new uint64_t[...]` default-initialises, so with
allocator residue `fun _ => 1` the freshly allocated live buffer word 0 is
non-zero — `alloc` does not return a zeroed matrix; and `alloc` performs no
validation at all: at `nbits = 0` (or any bad `colalign`) it still returns a
structure with the computed fields instead of failing. -/
theorem gemm_C3_counterexample :
    0 < (BitSerialMatrix.alloc (fun _ => 1) 8 5 5 false 1 64).nbits *
      (BitSerialMatrix.alloc (fun _ => 1) 8 5 5 false 1 64).wordsPerBitplane ∧
    (BitSerialMatrix.alloc (fun _ => 1) 8 5 5 false 1 64).data 0 ≠ 0 ∧
    (BitSerialMatrix.alloc (fun _ => 1) 0 5 5 false 1 64).nbits = 0 ∧
    (BitSerialMatrix.alloc (fun _ => 1) 0 5 5 false 63 62).nrows_a = 63 := by
  refine ⟨by decide, by decide, by decide, by decide⟩

/-- C3 (amended): `alloc` fills in the shape fields as computed
(`nrows_a`/`ncols_a` aligned up), performs no validation whatsoever (it
returns normally for every `nbits` and `colalign`), and its buffer holds the
allocator's indeterminate words; every live word is zero only after
`clearAll`. -/
theorem gemm_C3_alloc (fresh : Nat → Nat) (nbits nrows ncols : Nat)
    (issigned : Bool) (rowalign colalign : Nat) :
    (BitSerialMatrix.alloc fresh nbits nrows ncols issigned rowalign colalign).nbits
        = nbits ∧
    (BitSerialMatrix.alloc fresh nbits nrows ncols issigned rowalign colalign).nrows
        = nrows ∧
    (BitSerialMatrix.alloc fresh nbits nrows ncols issigned rowalign colalign).ncols
        = ncols ∧
    (BitSerialMatrix.alloc fresh nbits nrows ncols issigned rowalign colalign).nrows_a
        = alignTo nrows rowalign ∧
    (BitSerialMatrix.alloc fresh nbits nrows ncols issigned rowalign colalign).ncols_a
        = alignTo ncols colalign ∧
    (BitSerialMatrix.alloc fresh nbits nrows ncols issigned rowalign colalign).issigned
        = issigned ∧
    (BitSerialMatrix.alloc fresh nbits nrows ncols issigned rowalign colalign).data
        = fresh ∧
    (∀ i, i < nbits *
        (BitSerialMatrix.alloc fresh nbits nrows ncols issigned rowalign
          colalign).wordsPerBitplane →
      (BitSerialMatrix.alloc fresh nbits nrows ncols issigned rowalign
        colalign).clearAll.data i = 0) := by
  refine ⟨rfl, rfl, rfl, rfl, rfl, rfl, rfl, ?_⟩
  intro i hi
  exact if_pos hi

/-- Witness for the amended C3 at the spec's concrete scenario 4 shape:
`alloc(3, 5, 70, false, 8, 128)` gives `nrows_a = 8`, `ncols_a = 128`, and a
cleared buffer. -/
theorem gemm_C3_alloc_witness :
    (BitSerialMatrix.alloc (fun _ => 9) 3 5 70 false 8 128).nbits = 3 ∧
    (BitSerialMatrix.alloc (fun _ => 9) 3 5 70 false 8 128).nrows = 5 ∧
    (BitSerialMatrix.alloc (fun _ => 9) 3 5 70 false 8 128).ncols = 70 ∧
    (BitSerialMatrix.alloc (fun _ => 9) 3 5 70 false 8 128).nrows_a = alignTo 5 8 ∧
    (BitSerialMatrix.alloc (fun _ => 9) 3 5 70 false 8 128).ncols_a = alignTo 70 128 ∧
    (BitSerialMatrix.alloc (fun _ => 9) 3 5 70 false 8 128).issigned = false ∧
    (BitSerialMatrix.alloc (fun _ => 9) 3 5 70 false 8 128).data = (fun _ => 9) ∧
    (∀ i, i < 3 *
        (BitSerialMatrix.alloc (fun _ => 9) 3 5 70 false 8 128).wordsPerBitplane →
      (BitSerialMatrix.alloc (fun _ => 9) 3 5 70 false 8 128).clearAll.data i = 0) :=
  gemm_C3_alloc (fun _ => 9) 3 5 70 false 8 128

/-! ### Word-level sums for the GEMM kernel (claim C1) -/

theorem dataBound_foldl {α : Type} (W : BitSerialMatrix → α → BitSerialMatrix)
    (h : ∀ a x, dataBound a → dataBound (W a x)) :
    ∀ (L : List α) (m : BitSerialMatrix), dataBound m → dataBound (L.foldl W m) := by
  intro L
  induction L with
  | nil => intro m hm; exact hm
  | cons x L ih => intro m hm; exact ih (W m x) (h m x hm)

theorem dataBound_writeByteBits {m : BitSerialMatrix} (h : dataBound m)
    (byte r c : Nat) : dataBound (m.writeByteBits byte r c) := by
  unfold BitSerialMatrix.writeByteBits
  refine dataBound_foldl _ ?_ _ m h
  intro a b ha
  split
  · exact BitSerialMatrix.dataBound_set ha _ _ _
  · exact ha

theorem dataBound_importElem {m : BitSerialMatrix} (h : dataBound m) (v : Int)
    (r c : Nat) : dataBound (m.importElem v r c) := by
  unfold BitSerialMatrix.importElem
  split
  · split
    · exact BitSerialMatrix.dataBound_set h _ _ _
    · exact h
  · exact dataBound_writeByteBits h _ r c

theorem dataBound_importRegular (m : BitSerialMatrix) (M : Nat → Int)
    (rcm : Bool) : dataBound (m.importRegular M rcm) := by
  unfold BitSerialMatrix.importRegular
  refine dataBound_foldl _ ?_ _ _ (BitSerialMatrix.dataBound_clearAll m)
  intro a r ha
  exact dataBound_foldl _ (fun a2 c ha2 => dataBound_importElem ha2 _ r c) _ a ha

/-- Popcount of an AND of two words as a per-bit sum. -/
theorem popcount_and (x y : Nat) (hx : x < 2 ^ 64) :
    popcount (x &&& y) =
      (Finset.range 64).sum (fun p => if x.testBit p && y.testBit p then 1 else 0) := by
  have hxy : x &&& y < 2 ^ 64 := lt_of_le_of_lt Nat.and_le_left hx
  rw [popcount_eq_sum (x &&& y) 64 hxy]
  exact Finset.sum_congr rfl (fun p _ => by rw [Nat.testBit_and])

/-- `get` through the packed word at offset `w`, bit `p`. -/
theorem get_word (m : BitSerialMatrix) (b r w p : Nat) (hp : p < 64) :
    m.get b r (w * 64 + p) =
      (m.data (b * m.wordsPerBitplane + r * m.wordsPerRow + w)).testBit p := by
  have h1 : (w * 64 + p) / 64 = w := by omega
  have h2 : (w * 64 + p) % 64 = p := by omega
  show (m.data (b * m.wordsPerBitplane + r * m.wordsPerRow +
      (w * 64 + p) / 64)).testBit ((w * 64 + p) % 64) = _
  rw [h1, h2]

theorem sum_range_add {M : Type} [AddCommMonoid M] (f : Nat → M) (n : Nat) :
    ∀ m : Nat, (Finset.range (n + m)).sum f =
      (Finset.range n).sum f + (Finset.range m).sum (fun i => f (n + i)) := by
  intro m
  induction m with
  | zero => simp
  | succ m ih =>
    have h1 : n + (m + 1) = (n + m) + 1 := by omega
    rw [h1, Finset.sum_range_succ, ih, Finset.sum_range_succ]
    rw [add_assoc]

/-- A sum over `a*b` indices as a double sum over words and bit offsets. -/
theorem sum_range_mul {M : Type} [AddCommMonoid M] (f : Nat → M) (b : Nat) :
    ∀ a : Nat, (Finset.range (a * b)).sum f =
      (Finset.range a).sum (fun w => (Finset.range b).sum (fun p => f (w * b + p))) := by
  intro a
  induction a with
  | zero => simp
  | succ a ih =>
    have h1 : (a + 1) * b = a * b + b := by ring
    rw [h1, sum_range_add f (a * b) b, ih, Finset.sum_range_succ]

/-- The micro-kernel word sum counts exactly the columns where both operand
bits are set. -/
theorem andcard_eq_sum (lhs rhs : BitSerialMatrix) (bL i bR j : Nat)
    (hmod : lhs.ncols_a % 64 = 0) (hEq : rhs.ncols_a = lhs.ncols_a)
    (hdL : dataBound lhs) (hdR : dataBound rhs) (hbL : bL < lhs.nbits)
    (hi : i < lhs.nrows_a) (hbR : bR < rhs.nbits) (hj : j < rhs.nrows_a) :
    andcard lhs rhs bL i bR j =
      (Finset.range lhs.ncols_a).sum
        (fun c => if lhs.get bL i c && rhs.get bR j c then 1 else 0) := by
  have hWR : rhs.wordsPerRow = lhs.wordsPerRow := by
    unfold BitSerialMatrix.wordsPerRow
    rw [hEq]
  have hcols : lhs.ncols_a = lhs.wordsPerRow * 64 :=
    (Nat.div_mul_cancel (Nat.dvd_of_mod_eq_zero hmod)).symm
  unfold andcard
  rw [hcols, sum_range_mul]
  refine Finset.sum_congr rfl ?_
  intro w hw
  have hwlt : w < lhs.wordsPerRow := Finset.mem_range.mp hw
  have hidxL : bL * lhs.wordsPerBitplane + i * lhs.wordsPerRow + w <
      lhs.nbits * lhs.wordsPerBitplane := by
    have h2 : i * lhs.wordsPerRow + w < lhs.wordsPerBitplane := encode_lt hi hwlt
    have h3 := encode_lt hbL h2
    omega
  have hidxR : bR * rhs.wordsPerBitplane + j * rhs.wordsPerRow + w <
      rhs.nbits * rhs.wordsPerBitplane := by
    have hwlt' : w < rhs.wordsPerRow := by rw [hWR]; exact hwlt
    have h2 : j * rhs.wordsPerRow + w < rhs.wordsPerBitplane := encode_lt hj hwlt'
    have h3 := encode_lt hbR h2
    omega
  rw [popcount_and _ _ (hdL _ hidxL)]
  refine Finset.sum_congr rfl ?_
  intro p hp
  have hp64 : p < 64 := Finset.mem_range.mp hp
  rw [get_word lhs bL i w p hp64,
    get_word rhs bR j w p hp64, hWR]

/-- The per-row popcount (`sumRows`) counts the set bits of the row. -/
theorem rowPopcount_eq_sum (m : BitSerialMatrix) (b r : Nat)
    (hmod : m.ncols_a % 64 = 0) (hd : dataBound m) (hb : b < m.nbits)
    (hr : r < m.nrows_a) :
    rowPopcount m b r =
      (Finset.range m.ncols_a).sum (fun c => if m.get b r c then 1 else 0) := by
  have hcols : m.ncols_a = m.wordsPerRow * 64 :=
    (Nat.div_mul_cancel (Nat.dvd_of_mod_eq_zero hmod)).symm
  unfold rowPopcount
  rw [hcols, sum_range_mul]
  refine Finset.sum_congr rfl ?_
  intro w hw
  have hwlt : w < m.wordsPerRow := Finset.mem_range.mp hw
  have hidx : b * m.wordsPerBitplane + r * m.wordsPerRow + w <
      m.nbits * m.wordsPerBitplane := by
    have h2 : r * m.wordsPerRow + w < m.wordsPerBitplane := encode_lt hr hwlt
    have h3 := encode_lt hb h2
    omega
  rw [popcount_eq_sum _ 64 (hd _ hidx)]
  refine Finset.sum_congr rfl ?_
  intro p hp
  rw [get_word m b r w p (Finset.mem_range.mp hp)]

/-! ### Column decoding for the GEMM proof (claim C1) -/

theorem nonbipolar_beq {nbits : Nat} {issigned : Bool}
    (h : ¬(nbits = 1 ∧ issigned = true)) : (nbits == 1 && issigned) = false := by
  by_cases h1 : nbits = 1
  · cases issigned with
    | false => simp
    | true => exact absurd ⟨h1, rfl⟩ h
  · simp [h1]

/-- The weighted, sign-corrected sum of the byte bits recovers the element. -/
theorem decode_planeSign (issigned : Bool) (nbits : Nat) (v : Int)
    (h1 : 1 ≤ nbits) (h8 : nbits ≤ 8) (hnb : ¬(nbits = 1 ∧ issigned = true))
    (hr : inRange issigned nbits v) :
    (Finset.range nbits).sum (fun b => planeSign issigned nbits b * 2 ^ b *
      (if (BitSerialMatrix.importByte issigned nbits v).testBit b then 1 else 0)) =
      v := by
  refine Eq.trans (Finset.sum_congr rfl (fun b _ => ?_))
    (BitSerialMatrix.decode_importByte issigned nbits v h1 h8 hnb hr)
  unfold planeSign
  by_cases ht : (BitSerialMatrix.importByte issigned nbits v).testBit b
  · rw [if_pos ht, if_pos ht]
    by_cases hc : issigned = true ∧ b = nbits - 1
    · rw [if_pos hc, if_pos ⟨hc.2, hc.1⟩]; ring
    · rw [if_neg hc, if_neg (fun h => hc ⟨h.2, h.1⟩)]; ring
  · rw [if_neg ht, if_neg ht]; ring

/-- Column `c` of a non-bipolar imported matrix decodes to the source element
(on logical columns) or to zero (on padding). -/
theorem decodeCol_nonbip (m : BitSerialMatrix) (Msrc : Nat → Int) (rcm : Bool)
    (r : Nat) (hmod : m.ncols_a % 64 = 0) (hra : m.nrows ≤ m.nrows_a)
    (hca : m.ncols ≤ m.ncols_a) (h1 : 1 ≤ m.nbits) (h8 : m.nbits ≤ 8)
    (hnb : ¬(m.nbits = 1 ∧ m.issigned = true)) (hr : r < m.nrows)
    (hin : ∀ k, k < m.ncols →
      inRange m.issigned m.nbits (BitSerialMatrix.srcElem Msrc m.nrows m.ncols rcm r k))
    (c : Nat) (hc : c < m.ncols_a) :
    (Finset.range m.nbits).sum (fun b => planeSign m.issigned m.nbits b * 2 ^ b *
      (if (m.importRegular Msrc rcm).get b r c then 1 else 0)) =
      (if c < m.ncols then BitSerialMatrix.srcElem Msrc m.nrows m.ncols rcm r c
       else 0) := by
  have hget : ∀ b, b < m.nbits → (m.importRegular Msrc rcm).get b r c =
      (decide (c < m.ncols) &&
        BitSerialMatrix.importBit m.issigned m.nbits
          (BitSerialMatrix.srcElem Msrc m.nrows m.ncols rcm r c) b) := by
    intro b hb
    rw [BitSerialMatrix.importRegular_get m Msrc rcm hmod hra hca hb
      (lt_of_lt_of_le hr hra) hc]
    simp [hr]
  by_cases hcc : c < m.ncols
  · rw [if_pos hcc]
    have hsum : ∀ b ∈ Finset.range m.nbits,
        planeSign m.issigned m.nbits b * 2 ^ b *
          (if (m.importRegular Msrc rcm).get b r c then 1 else 0) =
        planeSign m.issigned m.nbits b * 2 ^ b *
          (if (BitSerialMatrix.importByte m.issigned m.nbits
              (BitSerialMatrix.srcElem Msrc m.nrows m.ncols rcm r c)).testBit b
            then 1 else 0) := by
      intro b hb
      rw [hget b (Finset.mem_range.mp hb),
        BitSerialMatrix.importBit_nonbipolar (nonbipolar_beq hnb)]
      simp [hcc]
    rw [Finset.sum_congr rfl hsum]
    exact decode_planeSign m.issigned m.nbits _ h1 h8 hnb (hin c hcc)
  · rw [if_neg hcc]
    refine Finset.sum_eq_zero (fun b hb => ?_)
    rw [hget b (Finset.mem_range.mp hb)]
    simp [hcc]

/-- Column `c` of a bipolar imported matrix: below `ncols` the stored bit is
the sign test of a `{-1,+1}` element, above it the bit is clear. -/
theorem bipCol (m : BitSerialMatrix) (Msrc : Nat → Int) (rcm : Bool) (r : Nat)
    (hmod : m.ncols_a % 64 = 0) (hra : m.nrows ≤ m.nrows_a)
    (hca : m.ncols ≤ m.ncols_a) (hb1 : m.nbits = 1 ∧ m.issigned = true)
    (hr : r < m.nrows)
    (hin : ∀ k, k < m.ncols →
      inRange m.issigned m.nbits (BitSerialMatrix.srcElem Msrc m.nrows m.ncols rcm r k))
    (c : Nat) (hc : c < m.ncols_a) :
    (c < m.ncols →
      2 * (if (m.importRegular Msrc rcm).get 0 r c then (1 : Int) else 0) - 1 =
        BitSerialMatrix.srcElem Msrc m.nrows m.ncols rcm r c) ∧
    (m.ncols ≤ c → (m.importRegular Msrc rcm).get 0 r c = false) := by
  have hget : (m.importRegular Msrc rcm).get 0 r c =
      (decide (c < m.ncols) &&
        BitSerialMatrix.importBit m.issigned m.nbits
          (BitSerialMatrix.srcElem Msrc m.nrows m.ncols rcm r c) 0) := by
    rw [BitSerialMatrix.importRegular_get m Msrc rcm hmod hra hca (by omega)
      (lt_of_lt_of_le hr hra) hc]
    simp [hr]
  constructor
  · intro hcc
    have hib : BitSerialMatrix.importBit m.issigned m.nbits
        (BitSerialMatrix.srcElem Msrc m.nrows m.ncols rcm r c) 0 =
        decide (0 < BitSerialMatrix.srcElem Msrc m.nrows m.ncols rcm r c) := by
      unfold BitSerialMatrix.importBit
      rw [if_pos (by rw [hb1.1, hb1.2]; rfl)]
      simp
    rw [hget, hib]
    have hv := hin c hcc
    unfold inRange at hv
    rw [if_pos ⟨hb1.1, hb1.2⟩] at hv
    rcases hv with hv | hv
    · rw [hv]; simp [hcc]
    · rw [hv]; simp [hcc]
  · intro hcc
    rw [hget]
    simp [Nat.not_lt_of_le hcc]

/-- Summing the sign-corrected weighted bit-planes of a non-bipolar imported
matrix against any per-column factor decodes each logical column to its
source element (padding contributes nothing). -/
theorem planeSum_decode (m : BitSerialMatrix) (Msrc : Nat → Int) (rcm : Bool)
    (r : Nat) (K : Nat) (hK : K = m.ncols_a) (hmod : m.ncols_a % 64 = 0)
    (hra : m.nrows ≤ m.nrows_a) (hca : m.ncols ≤ m.ncols_a) (h1 : 1 ≤ m.nbits)
    (h8 : m.nbits ≤ 8) (hnb : ¬(m.nbits = 1 ∧ m.issigned = true))
    (hr : r < m.nrows)
    (hin : ∀ k, k < m.ncols →
      inRange m.issigned m.nbits (BitSerialMatrix.srcElem Msrc m.nrows m.ncols rcm r k))
    (g : Nat → Int) :
    (Finset.range m.nbits).sum (fun b => planeSign m.issigned m.nbits b * 2 ^ b *
      ((Finset.range K).sum (fun c =>
        (if (m.importRegular Msrc rcm).get b r c then (1 : Int) else 0) * g c))) =
    (Finset.range K).sum (fun c =>
      (if c < m.ncols then BitSerialMatrix.srcElem Msrc m.nrows m.ncols rcm r c
       else 0) * g c) := by
  subst hK
  rw [Finset.sum_congr rfl (fun b _ => Finset.mul_sum (Finset.range m.ncols_a)
    (fun c => (if (m.importRegular Msrc rcm).get b r c then (1 : Int) else 0) * g c)
    (planeSign m.issigned m.nbits b * 2 ^ b))]
  rw [Finset.sum_comm]
  refine Finset.sum_congr rfl (fun c hc => ?_)
  have hc' : c < m.ncols_a := Finset.mem_range.mp hc
  calc (Finset.range m.nbits).sum (fun b => planeSign m.issigned m.nbits b * 2 ^ b *
        ((if (m.importRegular Msrc rcm).get b r c then (1 : Int) else 0) * g c))
      = (Finset.range m.nbits).sum (fun b => (planeSign m.issigned m.nbits b * 2 ^ b *
          (if (m.importRegular Msrc rcm).get b r c then (1 : Int) else 0)) * g c) := by
        refine Finset.sum_congr rfl (fun b _ => ?_)
        ring
    _ = ((Finset.range m.nbits).sum (fun b => planeSign m.issigned m.nbits b * 2 ^ b *
          (if (m.importRegular Msrc rcm).get b r c then (1 : Int) else 0))) * g c := by
        rw [Finset.sum_mul]
    _ = (if c < m.ncols then BitSerialMatrix.srcElem Msrc m.nrows m.ncols rcm r c
          else 0) * g c := by
        rw [decodeCol_nonbip m Msrc rcm r hmod hra hca h1 h8 hnb hr hin c hc']

theorem sum_bipolar_expand (s : Finset Nat) (f g : Nat → Int) :
    s.sum (fun c => (2 * f c - 1) * (2 * g c - 1)) =
      4 * s.sum (fun c => f c * g c) - 2 * s.sum f - 2 * s.sum g + s.card := by
  calc s.sum (fun c => (2 * f c - 1) * (2 * g c - 1))
      = s.sum (fun c => (4 * (f c * g c) - 2 * f c - 2 * g c) + 1) := by
        refine Finset.sum_congr rfl (fun c _ => ?_)
        ring
    _ = s.sum (fun c => 4 * (f c * g c) - 2 * f c - 2 * g c) +
        s.sum (fun _ => (1 : Int)) := Finset.sum_add_distrib
    _ = (s.sum (fun c => 4 * (f c * g c) - 2 * f c) - s.sum (fun c => 2 * g c)) +
        s.sum (fun _ => (1 : Int)) := by rw [Finset.sum_sub_distrib]
    _ = ((s.sum (fun c => 4 * (f c * g c)) - s.sum (fun c => 2 * f c)) -
          s.sum (fun c => 2 * g c)) + s.sum (fun _ => (1 : Int)) := by
        rw [Finset.sum_sub_distrib]
    _ = 4 * s.sum (fun c => f c * g c) - 2 * s.sum f - 2 * s.sum g + s.card := by
        rw [← Finset.mul_sum, ← Finset.mul_sum, ← Finset.mul_sum, Finset.sum_const]
        simp [mul_comm]

/-- Modelled kernel correctness at the entry level: one `gemmEntry` over two
imported operands equals the integer inner product of the logical rows. -/
theorem gemmEntry_imported (mL mR : BitSerialMatrix) (A B : Nat → Int)
    (rcmA rcmB : Bool) (i j : Nat)
    (hmodL : mL.ncols_a % 64 = 0) (hEq : mR.ncols_a = mL.ncols_a)
    (hdepth : mR.ncols = mL.ncols)
    (hraL : mL.nrows ≤ mL.nrows_a) (hcaL : mL.ncols ≤ mL.ncols_a)
    (hraR : mR.nrows ≤ mR.nrows_a) (hcaR : mR.ncols ≤ mR.ncols_a)
    (h1L : 1 ≤ mL.nbits) (h8L : mL.nbits ≤ 8) (h1R : 1 ≤ mR.nbits)
    (h8R : mR.nbits ≤ 8) (hi : i < mL.nrows) (hj : j < mR.nrows)
    (hinA : ∀ k, k < mL.ncols → inRange mL.issigned mL.nbits
      (BitSerialMatrix.srcElem A mL.nrows mL.ncols rcmA i k))
    (hinB : ∀ k, k < mR.ncols → inRange mR.issigned mR.nbits
      (BitSerialMatrix.srcElem B mR.nrows mR.ncols rcmB j k)) :
    gemmEntry (mL.importRegular A rcmA) (mR.importRegular B rcmB) i j =
      (Finset.range mL.ncols).sum (fun k =>
        BitSerialMatrix.srcElem A mL.nrows mL.ncols rcmA i k *
        BitSerialMatrix.srcElem B mR.nrows mR.ncols rcmB j k) := by
  obtain ⟨esL, ebL, enrL, encL, eraL, ecaL⟩ :=
    BitSerialMatrix.sameShape_importRegular mL A rcmA
  obtain ⟨esR, ebR, enrR, encR, eraR, ecaR⟩ :=
    BitSerialMatrix.sameShape_importRegular mR B rcmB
  have hmodR : mR.ncols_a % 64 = 0 := by rw [hEq]; exact hmodL
  have hdL : dataBound (mL.importRegular A rcmA) := dataBound_importRegular mL A rcmA
  have hdR : dataBound (mR.importRegular B rcmB) := dataBound_importRegular mR B rcmB
  have hiA : i < mL.nrows_a := lt_of_lt_of_le hi hraL
  have hjA : j < mR.nrows_a := lt_of_lt_of_le hj hraR
  have hbipLeq : (mL.importRegular A rcmA).isBipolar = (mL.nbits == 1 && mL.issigned) := by
    unfold BitSerialMatrix.isBipolar
    rw [ebL, esL]
  have hbipReq : (mR.importRegular B rcmB).isBipolar = (mR.nbits == 1 && mR.issigned) := by
    unfold BitSerialMatrix.isBipolar
    rw [ebR, esR]
  have hAND : ∀ bL bR, bL < mL.nbits → bR < mR.nbits →
      ((andcard (mL.importRegular A rcmA) (mR.importRegular B rcmB) bL i bR j : Nat) : Int) =
        (Finset.range mL.ncols_a).sum (fun c =>
          (if (mL.importRegular A rcmA).get bL i c then (1 : Int) else 0) *
          (if (mR.importRegular B rcmB).get bR j c then (1 : Int) else 0)) := by
    intro bL bR hbL hbR
    rw [andcard_eq_sum (mL.importRegular A rcmA) (mR.importRegular B rcmB) bL i bR j
      (by rw [ecaL]; exact hmodL) (by rw [ecaR, ecaL]; exact hEq) hdL hdR
      (by rw [ebL]; exact hbL) (by rw [eraL]; exact hiA)
      (by rw [ebR]; exact hbR) (by rw [eraR]; exact hjA), ecaL, Nat.cast_sum]
    refine Finset.sum_congr rfl (fun c _ => ?_)
    by_cases h1 : (mL.importRegular A rcmA).get bL i c = true <;>
      by_cases h2 : (mR.importRegular B rcmB).get bR j c = true <;>
      simp [h1, h2]
  have hROWL : ∀ bL, bL < mL.nbits →
      ((rowPopcount (mL.importRegular A rcmA) bL i : Nat) : Int) =
        (Finset.range mL.ncols_a).sum (fun c =>
          (if (mL.importRegular A rcmA).get bL i c then (1 : Int) else 0)) := by
    intro bL hbL
    rw [rowPopcount_eq_sum (mL.importRegular A rcmA) bL i (by rw [ecaL]; exact hmodL)
      hdL (by rw [ebL]; exact hbL) (by rw [eraL]; exact hiA), ecaL, Nat.cast_sum]
    refine Finset.sum_congr rfl (fun c _ => ?_)
    by_cases h1 : (mL.importRegular A rcmA).get bL i c = true <;> simp [h1]
  have hROWR : ∀ bR, bR < mR.nbits →
      ((rowPopcount (mR.importRegular B rcmB) bR j : Nat) : Int) =
        (Finset.range mL.ncols_a).sum (fun c =>
          (if (mR.importRegular B rcmB).get bR j c then (1 : Int) else 0)) := by
    intro bR hbR
    rw [rowPopcount_eq_sum (mR.importRegular B rcmB) bR j (by rw [ecaR]; exact hmodR)
      hdR (by rw [ebR]; exact hbR) (by rw [eraR]; exact hjA), ecaR, hEq, Nat.cast_sum]
    refine Finset.sum_congr rfl (fun c _ => ?_)
    by_cases h1 : (mR.importRegular B rcmB).get bR j c = true <;> simp [h1]
  have hKsub : Finset.range mL.ncols ⊆ Finset.range mL.ncols_a :=
    Finset.range_subset.mpr hcaL
  have hpadL : ∀ b, b < mL.nbits → ∀ c ∈ Finset.range mL.ncols_a,
      c ∉ Finset.range mL.ncols →
      (mL.importRegular A rcmA).get b i c = false := by
    intro b hb c hcK hcn
    have hge : mL.ncols ≤ c := by
      have hlt : ¬ c < mL.ncols := fun h => hcn (Finset.mem_range.mpr h)
      omega
    rw [BitSerialMatrix.importRegular_get mL A rcmA hmodL hraL hcaL hb hiA
      (Finset.mem_range.mp hcK)]
    simp [Nat.not_lt_of_le hge]
  have hpadR : ∀ b, b < mR.nbits → ∀ c ∈ Finset.range mL.ncols_a,
      c ∉ Finset.range mL.ncols →
      (mR.importRegular B rcmB).get b j c = false := by
    intro b hb c hcK hcn
    have hge : mR.ncols ≤ c := by
      have hlt : ¬ c < mL.ncols := fun h => hcn (Finset.mem_range.mpr h)
      omega
    have hcK' : c < mR.ncols_a := by
      have := Finset.mem_range.mp hcK
      omega
    rw [BitSerialMatrix.importRegular_get mR B rcmB hmodR hraR hcaR hb hjA hcK']
    simp [Nat.not_lt_of_le hge]
  by_cases hb1L : mL.nbits = 1 ∧ mL.issigned = true
  · by_cases hb1R : mR.nbits = 1 ∧ mR.issigned = true
    · -- bipolar x bipolar
      have hBL : (mL.nbits == 1 && mL.issigned) = true := by rw [hb1L.1, hb1L.2]; rfl
      have hBR : (mR.nbits == 1 && mR.issigned) = true := by rw [hb1R.1, hb1R.2]; rfl
      unfold gemmEntry
      rw [hbipLeq, hbipReq, hBL, hBR]
      rw [if_pos (show ((true && true) = true) from rfl)]
      rw [hAND 0 0 (by omega) (by omega), hROWL 0 (by omega), hROWR 0 (by omega),
        encL]
      have hsubL : (Finset.range mL.ncols).sum (fun c =>
            (if (mL.importRegular A rcmA).get 0 i c then (1 : Int) else 0)) =
          (Finset.range mL.ncols_a).sum (fun c =>
            (if (mL.importRegular A rcmA).get 0 i c then (1 : Int) else 0)) := by
        refine Finset.sum_subset hKsub (fun c hcK hcn => ?_)
        rw [hpadL 0 (by omega) c hcK hcn]
        simp
      have hsubR : (Finset.range mL.ncols).sum (fun c =>
            (if (mR.importRegular B rcmB).get 0 j c then (1 : Int) else 0)) =
          (Finset.range mL.ncols_a).sum (fun c =>
            (if (mR.importRegular B rcmB).get 0 j c then (1 : Int) else 0)) := by
        refine Finset.sum_subset hKsub (fun c hcK hcn => ?_)
        rw [hpadR 0 (by omega) c hcK hcn]
        simp
      have hsubP : (Finset.range mL.ncols).sum (fun c =>
            (if (mL.importRegular A rcmA).get 0 i c then (1 : Int) else 0) *
            (if (mR.importRegular B rcmB).get 0 j c then (1 : Int) else 0)) =
          (Finset.range mL.ncols_a).sum (fun c =>
            (if (mL.importRegular A rcmA).get 0 i c then (1 : Int) else 0) *
            (if (mR.importRegular B rcmB).get 0 j c then (1 : Int) else 0)) := by
        refine Finset.sum_subset hKsub (fun c hcK hcn => ?_)
        rw [hpadL 0 (by omega) c hcK hcn]
        simp
      rw [← hsubL, ← hsubR, ← hsubP]
      have hAB : ∀ c ∈ Finset.range mL.ncols,
          BitSerialMatrix.srcElem A mL.nrows mL.ncols rcmA i c *
            BitSerialMatrix.srcElem B mR.nrows mR.ncols rcmB j c =
          (2 * (if (mL.importRegular A rcmA).get 0 i c then (1 : Int) else 0) - 1) *
          (2 * (if (mR.importRegular B rcmB).get 0 j c then (1 : Int) else 0) - 1) := by
        intro c hc
        have hcc := Finset.mem_range.mp hc
        have hcR : c < mR.ncols_a := by
          have := lt_of_lt_of_le hcc hcaL
          omega
        rw [← (bipCol mL A rcmA i hmodL hraL hcaL hb1L hi hinA c
          (lt_of_lt_of_le hcc hcaL)).1 hcc]
        rw [← (bipCol mR B rcmB j hmodR hraR hcaR hb1R hj hinB c hcR).1 (by omega)]
      rw [Finset.sum_congr rfl hAB, sum_bipolar_expand, Finset.card_range]
      ring
    · -- bipolar x regular
      have hBL : (mL.nbits == 1 && mL.issigned) = true := by rw [hb1L.1, hb1L.2]; rfl
      have hBR : (mR.nbits == 1 && mR.issigned) = false := nonbipolar_beq hb1R
      unfold gemmEntry
      rw [hbipLeq, hbipReq, hBL, hBR]
      rw [if_neg (show ¬((true && false) = true) from by decide),
        if_pos (show ((true : Bool) = true) from rfl)]
      have hterm : ∀ bR ∈ Finset.range mR.nbits,
          planeSign (mR.importRegular B rcmB).issigned
              (mR.importRegular B rcmB).nbits bR * 2 ^ bR *
            (2 * ((andcard (mL.importRegular A rcmA) (mR.importRegular B rcmB)
                0 i bR j : Nat) : Int) -
              ((rowPopcount (mR.importRegular B rcmB) bR j : Nat) : Int)) =
          planeSign mR.issigned mR.nbits bR * 2 ^ bR *
            ((Finset.range mL.ncols_a).sum (fun c =>
              (if (mR.importRegular B rcmB).get bR j c then (1 : Int) else 0) *
              (2 * (if (mL.importRegular A rcmA).get 0 i c then (1 : Int) else 0)
                - 1))) := by
        intro bR hbR
        have hbR' : bR < mR.nbits := Finset.mem_range.mp hbR
        rw [esR, ebR, hAND 0 bR (by omega) hbR', hROWR bR hbR']
        congr 1
        rw [Finset.mul_sum, ← Finset.sum_sub_distrib]
        refine Finset.sum_congr rfl (fun c _ => ?_)
        ring
      rw [Finset.sum_congr (congrArg Finset.range ebR) hterm]
      rw [planeSum_decode mR B rcmB j mL.ncols_a hEq.symm hmodR hraR hcaR h1R h8R
        hb1R hj hinB
        (fun c => 2 * (if (mL.importRegular A rcmA).get 0 i c then (1 : Int) else 0)
          - 1)]
      have hsubB : (Finset.range mL.ncols).sum (fun c =>
            (if c < mR.ncols then
              BitSerialMatrix.srcElem B mR.nrows mR.ncols rcmB j c else 0) *
            (2 * (if (mL.importRegular A rcmA).get 0 i c then (1 : Int) else 0)
              - 1)) =
          (Finset.range mL.ncols_a).sum (fun c =>
            (if c < mR.ncols then
              BitSerialMatrix.srcElem B mR.nrows mR.ncols rcmB j c else 0) *
            (2 * (if (mL.importRegular A rcmA).get 0 i c then (1 : Int) else 0)
              - 1)) := by
        refine Finset.sum_subset hKsub (fun c hcK hcn => ?_)
        have hge : mR.ncols ≤ c := by
          have hlt : ¬ c < mL.ncols := fun h => hcn (Finset.mem_range.mpr h)
          omega
        rw [if_neg (Nat.not_lt_of_le hge)]
        ring
      rw [← hsubB]
      refine Finset.sum_congr rfl (fun c hc => ?_)
      have hcc := Finset.mem_range.mp hc
      rw [if_pos (show c < mR.ncols by omega)]
      rw [← (bipCol mL A rcmA i hmodL hraL hcaL hb1L hi hinA c
        (lt_of_lt_of_le hcc hcaL)).1 hcc]
      ring
  · by_cases hb1R : mR.nbits = 1 ∧ mR.issigned = true
    · -- regular x bipolar
      have hBL : (mL.nbits == 1 && mL.issigned) = false := nonbipolar_beq hb1L
      have hBR : (mR.nbits == 1 && mR.issigned) = true := by rw [hb1R.1, hb1R.2]; rfl
      unfold gemmEntry
      rw [hbipLeq, hbipReq, hBL, hBR]
      rw [if_neg (show ¬((false && true) = true) from by decide),
        if_neg (show ¬((false : Bool) = true) from by decide),
        if_pos (show ((true : Bool) = true) from rfl)]
      have hterm : ∀ bL ∈ Finset.range mL.nbits,
          planeSign (mL.importRegular A rcmA).issigned
              (mL.importRegular A rcmA).nbits bL * 2 ^ bL *
            (2 * ((andcard (mL.importRegular A rcmA) (mR.importRegular B rcmB)
                bL i 0 j : Nat) : Int) -
              ((rowPopcount (mL.importRegular A rcmA) bL i : Nat) : Int)) =
          planeSign mL.issigned mL.nbits bL * 2 ^ bL *
            ((Finset.range mL.ncols_a).sum (fun c =>
              (if (mL.importRegular A rcmA).get bL i c then (1 : Int) else 0) *
              (2 * (if (mR.importRegular B rcmB).get 0 j c then (1 : Int) else 0)
                - 1))) := by
        intro bL hbL
        have hbL' : bL < mL.nbits := Finset.mem_range.mp hbL
        rw [esL, ebL, hAND bL 0 hbL' (by omega), hROWL bL hbL']
        congr 1
        rw [Finset.mul_sum, ← Finset.sum_sub_distrib]
        refine Finset.sum_congr rfl (fun c _ => ?_)
        ring
      rw [Finset.sum_congr (congrArg Finset.range ebL) hterm]
      rw [planeSum_decode mL A rcmA i mL.ncols_a rfl hmodL hraL hcaL h1L h8L
        hb1L hi hinA
        (fun c => 2 * (if (mR.importRegular B rcmB).get 0 j c then (1 : Int) else 0)
          - 1)]
      have hsubC : (Finset.range mL.ncols).sum (fun c =>
            (if c < mL.ncols then
              BitSerialMatrix.srcElem A mL.nrows mL.ncols rcmA i c else 0) *
            (2 * (if (mR.importRegular B rcmB).get 0 j c then (1 : Int) else 0)
              - 1)) =
          (Finset.range mL.ncols_a).sum (fun c =>
            (if c < mL.ncols then
              BitSerialMatrix.srcElem A mL.nrows mL.ncols rcmA i c else 0) *
            (2 * (if (mR.importRegular B rcmB).get 0 j c then (1 : Int) else 0)
              - 1)) := by
        refine Finset.sum_subset hKsub (fun c hcK hcn => ?_)
        have hge : mL.ncols ≤ c := by
          have hlt : ¬ c < mL.ncols := fun h => hcn (Finset.mem_range.mpr h)
          omega
        rw [if_neg (Nat.not_lt_of_le hge)]
        ring
      rw [← hsubC]
      refine Finset.sum_congr rfl (fun c hc => ?_)
      have hcc := Finset.mem_range.mp hc
      have hcR : c < mR.ncols_a := by
        have := lt_of_lt_of_le hcc hcaL
        omega
      rw [if_pos hcc]
      rw [← (bipCol mR B rcmB j hmodR hraR hcaR hb1R hj hinB c hcR).1 (by omega)]
    · -- regular x regular
      have hBL : (mL.nbits == 1 && mL.issigned) = false := nonbipolar_beq hb1L
      have hBR : (mR.nbits == 1 && mR.issigned) = false := nonbipolar_beq hb1R
      unfold gemmEntry
      rw [hbipLeq, hbipReq, hBL, hBR]
      rw [if_neg (show ¬((false && false) = true) from by decide),
        if_neg (show ¬((false : Bool) = true) from by decide),
        if_neg (show ¬((false : Bool) = true) from by decide)]
      have houter : ∀ bL ∈ Finset.range mL.nbits,
          (Finset.range (mR.importRegular B rcmB).nbits).sum (fun bR =>
            planeSign (mL.importRegular A rcmA).issigned
                (mL.importRegular A rcmA).nbits bL *
              planeSign (mR.importRegular B rcmB).issigned
                (mR.importRegular B rcmB).nbits bR *
              2 ^ (bL + bR) *
              ((andcard (mL.importRegular A rcmA) (mR.importRegular B rcmB)
                bL i bR j : Nat) : Int)) =
          planeSign mL.issigned mL.nbits bL * 2 ^ bL *
            ((Finset.range mR.nbits).sum (fun bR =>
              planeSign mR.issigned mR.nbits bR * 2 ^ bR *
                ((Finset.range mL.ncols_a).sum (fun c =>
                  (if (mR.importRegular B rcmB).get bR j c then (1 : Int) else 0) *
                  (if (mL.importRegular A rcmA).get bL i c then (1 : Int)
                    else 0))))) := by
        intro bL hbL
        have hbL' : bL < mL.nbits := Finset.mem_range.mp hbL
        rw [Finset.mul_sum]
        refine Finset.sum_congr (by rw [ebR]) (fun bR hbR => ?_)
        have hbR' : bR < mR.nbits := Finset.mem_range.mp hbR
        rw [esL, ebL, esR, ebR, hAND bL bR hbL' hbR']
        rw [show (Finset.range mL.ncols_a).sum (fun c =>
            (if (mL.importRegular A rcmA).get bL i c then (1 : Int) else 0) *
            (if (mR.importRegular B rcmB).get bR j c then (1 : Int) else 0)) =
          (Finset.range mL.ncols_a).sum (fun c =>
            (if (mR.importRegular B rcmB).get bR j c then (1 : Int) else 0) *
            (if (mL.importRegular A rcmA).get bL i c then (1 : Int) else 0)) from
          Finset.sum_congr rfl (fun c _ => mul_comm _ _)]
        ring
      rw [Finset.sum_congr (congrArg Finset.range ebL) houter]
      have hinner : ∀ bL ∈ Finset.range mL.nbits,
          planeSign mL.issigned mL.nbits bL * 2 ^ bL *
            ((Finset.range mR.nbits).sum (fun bR =>
              planeSign mR.issigned mR.nbits bR * 2 ^ bR *
                ((Finset.range mL.ncols_a).sum (fun c =>
                  (if (mR.importRegular B rcmB).get bR j c then (1 : Int) else 0) *
                  (if (mL.importRegular A rcmA).get bL i c then (1 : Int)
                    else 0))))) =
          planeSign mL.issigned mL.nbits bL * 2 ^ bL *
            ((Finset.range mL.ncols_a).sum (fun c =>
              (if (mL.importRegular A rcmA).get bL i c then (1 : Int) else 0) *
              (if c < mR.ncols then
                BitSerialMatrix.srcElem B mR.nrows mR.ncols rcmB j c else 0))) := by
        intro bL hbL
        congr 1
        rw [planeSum_decode mR B rcmB j mL.ncols_a hEq.symm hmodR hraR hcaR h1R h8R
          hb1R hj hinB
          (fun c => if (mL.importRegular A rcmA).get bL i c then (1 : Int) else 0)]
        refine Finset.sum_congr rfl (fun c _ => mul_comm _ _)
      rw [Finset.sum_congr rfl hinner]
      rw [planeSum_decode mL A rcmA i mL.ncols_a rfl hmodL hraL hcaL h1L h8L
        hb1L hi hinA
        (fun c => if c < mR.ncols then
          BitSerialMatrix.srcElem B mR.nrows mR.ncols rcmB j c else 0)]
      have hsubD : (Finset.range mL.ncols).sum (fun c =>
            (if c < mL.ncols then
              BitSerialMatrix.srcElem A mL.nrows mL.ncols rcmA i c else 0) *
            (if c < mR.ncols then
              BitSerialMatrix.srcElem B mR.nrows mR.ncols rcmB j c else 0)) =
          (Finset.range mL.ncols_a).sum (fun c =>
            (if c < mL.ncols then
              BitSerialMatrix.srcElem A mL.nrows mL.ncols rcmA i c else 0) *
            (if c < mR.ncols then
              BitSerialMatrix.srcElem B mR.nrows mR.ncols rcmB j c else 0)) := by
        refine Finset.sum_subset hKsub (fun c hcK hcn => ?_)
        have hge : mL.ncols ≤ c := by
          have hlt : ¬ c < mL.ncols := fun h => hcn (Finset.mem_range.mpr h)
          omega
        rw [if_neg (Nat.not_lt_of_le hge)]
        ring
      rw [← hsubD]
      refine Finset.sum_congr rfl (fun c hc => ?_)
      have hcc := Finset.mem_range.mp hc
      rw [if_pos hcc, if_pos (show c < mR.ncols by omega)]

/-- C1: GEMM correctness (the kernel itself is modelled from the spec, since
arch-generic.hpp is not among the sources).  For every context built by
`allocGEMMContext_base` with a positive depth register block, operand bit
widths between 1 and 8 and operand matrices whose elements are in range for
their `(nbits, signed)`, running `gemmBitSerial` on the two imported
operands yields, at result entry `i * rhsRows + j` for every `i < lhsRows`
and `j < rhsRows`, the naive integer inner product
`Σ_k lhs[i,k] * rhs[j,k]` — that is, `C = A * Bᵀ`. -/
theorem gemm_C1_correct (freshL freshR : Nat → Nat) (freshRes : Nat → Int)
    (lhsRows depth rhsRows lhsBits rhsBits : Nat) (lhsSigned rhsSigned : Bool)
    (regblock_lhs regblock_d regblock_rhs cL cR : Nat)
    (A B : Nat → Int) (rcmA rcmB : Bool) (i j : Nat)
    (hmD : 0 < regblock_d)
    (h1L : 1 ≤ lhsBits) (h8L : lhsBits ≤ 8)
    (h1R : 1 ≤ rhsBits) (h8R : rhsBits ≤ 8)
    (hi : i < lhsRows) (hj : j < rhsRows)
    (hinA : ∀ r k, r < lhsRows → k < depth → inRange lhsSigned lhsBits
      (BitSerialMatrix.srcElem A lhsRows depth rcmA r k))
    (hinB : ∀ r k, r < rhsRows → k < depth → inRange rhsSigned rhsBits
      (BitSerialMatrix.srcElem B rhsRows depth rcmB r k)) :
    gemmBitSerial
      ((allocGEMMContext_base freshL freshR freshRes lhsRows depth rhsRows
          lhsBits rhsBits lhsSigned rhsSigned regblock_lhs regblock_d
          regblock_rhs cL cR).lhs.importRegular A rcmA)
      ((allocGEMMContext_base freshL freshR freshRes lhsRows depth rhsRows
          lhsBits rhsBits lhsSigned rhsSigned regblock_lhs regblock_d
          regblock_rhs cL cR).rhs.importRegular B rcmB)
      (allocGEMMContext_base freshL freshR freshRes lhsRows depth rhsRows
          lhsBits rhsBits lhsSigned rhsSigned regblock_lhs regblock_d
          regblock_rhs cL cR).res
      (i * rhsRows + j) =
      naiveDot A B lhsRows rhsRows depth rcmA rcmB i j := by
  have hmod : (allocGEMMContext_base freshL freshR freshRes lhsRows depth rhsRows
      lhsBits rhsBits lhsSigned rhsSigned regblock_lhs regblock_d regblock_rhs
      cL cR).lhs.ncols_a % 64 = 0 := by
    have hdvd : 64 ∣ alignTo depth (regblock_d * 64) :=
      dvd_trans (dvd_mul_left 64 regblock_d)
        (dvd_alignTo (by omega) depth)
    obtain ⟨c, hc⟩ := hdvd
    show alignTo depth (regblock_d * 64) % 64 = 0
    omega
  obtain ⟨esL, ebL, enrL, encL, eraL, ecaL⟩ :=
    BitSerialMatrix.sameShape_importRegular ((allocGEMMContext_base freshL freshR
      freshRes lhsRows depth rhsRows lhsBits rhsBits lhsSigned rhsSigned
      regblock_lhs regblock_d regblock_rhs cL cR).lhs) A rcmA
  obtain ⟨esR, ebR, enrR, encR, eraR, ecaR⟩ :=
    BitSerialMatrix.sameShape_importRegular ((allocGEMMContext_base freshL freshR
      freshRes lhsRows depth rhsRows lhsBits rhsBits lhsSigned rhsSigned
      regblock_lhs regblock_d regblock_rhs cL cR).rhs) B rcmB
  have hread : gemmBitSerial
      ((allocGEMMContext_base freshL freshR freshRes lhsRows depth rhsRows
          lhsBits rhsBits lhsSigned rhsSigned regblock_lhs regblock_d
          regblock_rhs cL cR).lhs.importRegular A rcmA)
      ((allocGEMMContext_base freshL freshR freshRes lhsRows depth rhsRows
          lhsBits rhsBits lhsSigned rhsSigned regblock_lhs regblock_d
          regblock_rhs cL cR).rhs.importRegular B rcmB)
      (allocGEMMContext_base freshL freshR freshRes lhsRows depth rhsRows
          lhsBits rhsBits lhsSigned rhsSigned regblock_lhs regblock_d
          regblock_rhs cL cR).res
      (i * rhsRows + j) =
      gemmEntry
        ((allocGEMMContext_base freshL freshR freshRes lhsRows depth rhsRows
            lhsBits rhsBits lhsSigned rhsSigned regblock_lhs regblock_d
            regblock_rhs cL cR).lhs.importRegular A rcmA)
        ((allocGEMMContext_base freshL freshR freshRes lhsRows depth rhsRows
            lhsBits rhsBits lhsSigned rhsSigned regblock_lhs regblock_d
            regblock_rhs cL cR).rhs.importRegular B rcmB) i j := by
    unfold gemmBitSerial
    rw [show ((allocGEMMContext_base freshL freshR freshRes lhsRows depth rhsRows
        lhsBits rhsBits lhsSigned rhsSigned regblock_lhs regblock_d regblock_rhs
        cL cR).lhs.importRegular A rcmA).nrows = lhsRows from enrL]
    rw [show ((allocGEMMContext_base freshL freshR freshRes lhsRows depth rhsRows
        lhsBits rhsBits lhsSigned rhsSigned regblock_lhs regblock_d regblock_rhs
        cL cR).rhs.importRegular B rcmB).nrows = rhsRows from enrR]
    exact foldWrite_apply
      (fun r c => gemmEntry
        ((allocGEMMContext_base freshL freshR freshRes lhsRows depth rhsRows
            lhsBits rhsBits lhsSigned rhsSigned regblock_lhs regblock_d
            regblock_rhs cL cR).lhs.importRegular A rcmA)
        ((allocGEMMContext_base freshL freshR freshRes lhsRows depth rhsRows
            lhsBits rhsBits lhsSigned rhsSigned regblock_lhs regblock_d
            regblock_rhs cL cR).rhs.importRegular B rcmB) r c)
      rhsRows lhsRows _ i j hi hj
  rw [hread]
  unfold naiveDot
  exact gemmEntry_imported
    ((allocGEMMContext_base freshL freshR freshRes lhsRows depth rhsRows lhsBits
      rhsBits lhsSigned rhsSigned regblock_lhs regblock_d regblock_rhs cL cR).lhs)
    ((allocGEMMContext_base freshL freshR freshRes lhsRows depth rhsRows lhsBits
      rhsBits lhsSigned rhsSigned regblock_lhs regblock_d regblock_rhs cL cR).rhs)
    A B rcmA rcmB i j hmod rfl rfl (alignTo_le _ _) (alignTo_le _ _)
    (alignTo_le _ _) (alignTo_le _ _) h1L h8L h1R h8R hi hj
    (fun k hk => hinA i k hi hk) (fun k hk => hinB j k hj hk)

/-- Witness for C1: a 1x1 times 1x1 product of 2-bit unsigned operands,
`A = [2]`, `B = [3]`, through a context with unit register blocking. -/
theorem gemm_C1_correct_witness :
    gemmBitSerial
      ((allocGEMMContext_base (fun _ => 0) (fun _ => 0) (fun _ => 0) 1 1 1 2 2
          false false 1 1 1 1 1).lhs.importRegular (fun _ => 2) false)
      ((allocGEMMContext_base (fun _ => 0) (fun _ => 0) (fun _ => 0) 1 1 1 2 2
          false false 1 1 1 1 1).rhs.importRegular (fun _ => 3) false)
      (allocGEMMContext_base (fun _ => 0) (fun _ => 0) (fun _ => 0) 1 1 1 2 2
          false false 1 1 1 1 1).res (0 * 1 + 0) =
      naiveDot (fun _ => 2) (fun _ => 3) 1 1 1 false false 0 0 :=
  gemm_C1_correct (fun _ => 0) (fun _ => 0) (fun _ => 0) 1 1 1 2 2 false false
    1 1 1 1 1 (fun _ => 2) (fun _ => 3) false false 0 0 (by decide) (by decide)
    (by decide) (by decide) (by decide) (by decide) (by decide)
    (fun r k hr hk => by
      have hr0 : r = 0 := by omega
      have hk0 : k = 0 := by omega
      subst hr0
      subst hk0
      decide)
    (fun r k hr hk => by
      have hr0 : r = 0 := by omega
      have hk0 : k = 0 := by omega
      subst hr0
      subst hk0
      decide)

/-! ### Claim C8 -/

theorem finetuneBlockSize_pos (rows bs_max bs_div : Nat) (hdiv : 0 < bs_div)
    (hmax : 0 < bs_max) : 0 < finetuneBlockSize rows bs_max bs_div := by
  obtain ⟨ha, _, _, _⟩ := ftLoop_spec rows bs_div hdiv bs_max bs_max bs_max
    (penalty rows bs_max) le_rfl le_rfl rfl
  unfold finetuneBlockSize
  rcases ha with h | h
  · omega
  · omega

/-- C8: in `allocGEMMContext_base`, whenever the solver candidate exceeds
either row count the context falls back to the register-tile-only blocks
`alignTo(lhsRows, regblock_lhs)` / `alignTo(rhsRows, regblock_rhs)`; and in
every case the final `lhsBlock` divides `lhs.nrows_a` and the final
`rhsBlock` divides `rhs.nrows_a`.  The floating-point `computeBlockSize` is
covered through the oracle pair `(cL, cR)`, positive by its `assert(x > 0)`
and positive multipliers. -/
theorem gemm_C8_blocks (freshL freshR : Nat → Nat) (freshRes : Nat → Int)
    (lhsRows depth rhsRows lhsBits rhsBits : Nat) (lhsSigned rhsSigned : Bool)
    (regblock_lhs regblock_d regblock_rhs cL cR : Nat)
    (hL : 0 < lhsRows) (hR : 0 < rhsRows) (hD : 0 < depth)
    (hbL : 0 < lhsBits) (hbR : 0 < rhsBits) (hmL : 0 < regblock_lhs)
    (hmD : 0 < regblock_d) (hmR : 0 < regblock_rhs) (hcL : 0 < cL)
    (hcR : 0 < cR) :
    ((lhsRows < cL ∨ rhsRows < cR) →
      (allocGEMMContext_base freshL freshR freshRes lhsRows depth rhsRows lhsBits
          rhsBits lhsSigned rhsSigned regblock_lhs regblock_d regblock_rhs cL
          cR).lhsBlock = alignTo lhsRows regblock_lhs ∧
      (allocGEMMContext_base freshL freshR freshRes lhsRows depth rhsRows lhsBits
          rhsBits lhsSigned rhsSigned regblock_lhs regblock_d regblock_rhs cL
          cR).rhsBlock = alignTo rhsRows regblock_rhs) ∧
    (allocGEMMContext_base freshL freshR freshRes lhsRows depth rhsRows lhsBits
        rhsBits lhsSigned rhsSigned regblock_lhs regblock_d regblock_rhs cL
        cR).lhsBlock ∣
      (allocGEMMContext_base freshL freshR freshRes lhsRows depth rhsRows lhsBits
        rhsBits lhsSigned rhsSigned regblock_lhs regblock_d regblock_rhs cL
        cR).lhs.nrows_a ∧
    (allocGEMMContext_base freshL freshR freshRes lhsRows depth rhsRows lhsBits
        rhsBits lhsSigned rhsSigned regblock_lhs regblock_d regblock_rhs cL
        cR).rhsBlock ∣
      (allocGEMMContext_base freshL freshR freshRes lhsRows depth rhsRows lhsBits
        rhsBits lhsSigned rhsSigned regblock_lhs regblock_d regblock_rhs cL
        cR).rhs.nrows_a := by
  have hctxL : (allocGEMMContext_base freshL freshR freshRes lhsRows depth rhsRows
      lhsBits rhsBits lhsSigned rhsSigned regblock_lhs regblock_d regblock_rhs cL
      cR).lhsBlock =
      (if lhsRows < cL ∨ rhsRows < cR then alignTo lhsRows regblock_lhs
       else if lhsRows < 10 * (alignTo lhsRows cL - lhsRows) then
         finetuneBlockSize lhsRows cL regblock_lhs
       else cL) := rfl
  have hctxR : (allocGEMMContext_base freshL freshR freshRes lhsRows depth rhsRows
      lhsBits rhsBits lhsSigned rhsSigned regblock_lhs regblock_d regblock_rhs cL
      cR).rhsBlock =
      (if lhsRows < cL ∨ rhsRows < cR then alignTo rhsRows regblock_rhs
       else if rhsRows < 10 * (alignTo rhsRows cR - rhsRows) then
         finetuneBlockSize rhsRows cR regblock_rhs
       else cR) := rfl
  have hctxLa : (allocGEMMContext_base freshL freshR freshRes lhsRows depth rhsRows
      lhsBits rhsBits lhsSigned rhsSigned regblock_lhs regblock_d regblock_rhs cL
      cR).lhs.nrows_a =
      alignTo lhsRows ((allocGEMMContext_base freshL freshR freshRes lhsRows depth
        rhsRows lhsBits rhsBits lhsSigned rhsSigned regblock_lhs regblock_d
        regblock_rhs cL cR).lhsBlock) := rfl
  have hctxRa : (allocGEMMContext_base freshL freshR freshRes lhsRows depth rhsRows
      lhsBits rhsBits lhsSigned rhsSigned regblock_lhs regblock_d regblock_rhs cL
      cR).rhs.nrows_a =
      alignTo rhsRows ((allocGEMMContext_base freshL freshR freshRes lhsRows depth
        rhsRows lhsBits rhsBits lhsSigned rhsSigned regblock_lhs regblock_d
        regblock_rhs cL cR).rhsBlock) := rfl
  have hposL : 0 < (allocGEMMContext_base freshL freshR freshRes lhsRows depth
      rhsRows lhsBits rhsBits lhsSigned rhsSigned regblock_lhs regblock_d
      regblock_rhs cL cR).lhsBlock := by
    rw [hctxL]
    by_cases h1 : lhsRows < cL ∨ rhsRows < cR
    · rw [if_pos h1]
      exact alignTo_pos hL
    · rw [if_neg h1]
      by_cases h2 : lhsRows < 10 * (alignTo lhsRows cL - lhsRows)
      · rw [if_pos h2]
        exact finetuneBlockSize_pos lhsRows cL regblock_lhs hmL hcL
      · rw [if_neg h2]
        exact hcL
  have hposR : 0 < (allocGEMMContext_base freshL freshR freshRes lhsRows depth
      rhsRows lhsBits rhsBits lhsSigned rhsSigned regblock_lhs regblock_d
      regblock_rhs cL cR).rhsBlock := by
    rw [hctxR]
    by_cases h1 : lhsRows < cL ∨ rhsRows < cR
    · rw [if_pos h1]
      exact alignTo_pos hR
    · rw [if_neg h1]
      by_cases h2 : rhsRows < 10 * (alignTo rhsRows cR - rhsRows)
      · rw [if_pos h2]
        exact finetuneBlockSize_pos rhsRows cR regblock_rhs hmR hcR
      · rw [if_neg h2]
        exact hcR
  refine ⟨?_, ?_, ?_⟩
  · intro hfb
    rw [hctxL, hctxR, if_pos hfb, if_pos hfb]
    exact ⟨rfl, rfl⟩
  · rw [hctxLa]
    exact dvd_alignTo hposL lhsRows
  · rw [hctxRa]
    exact dvd_alignTo hposR rhsRows

/-- Witness for C8 in the fallback regime (`cL > lhsRows`) at concrete sizes. -/
theorem gemm_C8_blocks_witness :
    ((0 : Nat) < 4 ∧ (0 : Nat) < 2 ∧ (0 : Nat) < 8) ∧
    (((4 < 8 ∨ 6 < 8) →
      (allocGEMMContext_base (fun _ => 0) (fun _ => 0) (fun _ => 0) 4 64 6 2 2
          false false 2 1 2 8 8).lhsBlock = alignTo 4 2 ∧
      (allocGEMMContext_base (fun _ => 0) (fun _ => 0) (fun _ => 0) 4 64 6 2 2
          false false 2 1 2 8 8).rhsBlock = alignTo 6 2) ∧
    (allocGEMMContext_base (fun _ => 0) (fun _ => 0) (fun _ => 0) 4 64 6 2 2
        false false 2 1 2 8 8).lhsBlock ∣
      (allocGEMMContext_base (fun _ => 0) (fun _ => 0) (fun _ => 0) 4 64 6 2 2
        false false 2 1 2 8 8).lhs.nrows_a ∧
    (allocGEMMContext_base (fun _ => 0) (fun _ => 0) (fun _ => 0) 4 64 6 2 2
        false false 2 1 2 8 8).rhsBlock ∣
      (allocGEMMContext_base (fun _ => 0) (fun _ => 0) (fun _ => 0) 4 64 6 2 2
        false false 2 1 2 8 8).rhs.nrows_a) :=
  ⟨⟨by decide, by decide, by decide⟩,
    gemm_C8_blocks (fun _ => 0) (fun _ => 0) (fun _ => 0) 4 64 6 2 2 false false
      2 1 2 8 8 (by decide) (by decide) (by decide) (by decide) (by decide)
      (by decide) (by decide) (by decide) (by decide) (by decide)⟩

/-! ### The Roaring-prototype row loop (claim C9) -/

theorem rowLoopGo_succ_ok (elem : Nat → Int) (rows chans fuel r : Nat)
    (hr : r < rows) (hch : chans = rows) (rest : List Int)
    (hrec : rowLoopGo elem rows chans fuel (r + 1) = .ok rest) :
    rowLoopGo elem rows chans (fuel + 1) r = .ok (elem r :: rest) := by
  simp only [rowLoopGo]
  rw [if_pos hr, if_pos hch, hrec]

/-- With matching channel count the row loop returns all per-row values. -/
theorem rowLoopGo_ok (elem : Nat → Int) (rows chans : Nat) (hch : chans = rows) :
    ∀ fuel r, rows - r ≤ fuel →
      rowLoopGo elem rows chans fuel r =
        .ok ((List.range (rows - r)).map (fun i => elem (r + i))) := by
  intro fuel
  induction fuel with
  | zero =>
    intro r hf
    have h0 : rows - r = 0 := by omega
    rw [h0]
    rfl
  | succ fuel ih =>
    intro r hf
    by_cases hr : r < rows
    · rw [rowLoopGo_succ_ok elem rows chans fuel r hr hch _ (ih (r + 1) (by omega))]
      have hrr : rows - r = (rows - (r + 1)) + 1 := by omega
      rw [hrr, List.range_succ_eq_map, List.map_cons, List.map_map]
      have hhead : r + 0 = r := by omega
      rw [hhead]
      have htail : ∀ i ∈ List.range (rows - (r + 1)),
          (fun i => elem (r + 1 + i)) i = ((fun i => elem (r + i)) ∘ (· + 1)) i := by
        intro i _
        show elem (r + 1 + i) = elem (r + (i + 1))
        have : r + 1 + i = r + (i + 1) := by omega
        rw [this]
      rw [List.map_congr_left htail]
    · have h0 : rows - r = 0 := by omega
      rw [h0]
      show (if r < rows then _ else Except.ok ([] : List Int)) = _
      rw [if_neg hr]
      rfl

/-- With a mismatched channel count and at least one row the loop throws. -/
theorem rowLoopGo_err (elem : Nat → Int) (rows chans fuel r : Nat)
    (hch : chans ≠ rows) (hr : r < rows) :
    rowLoopGo elem rows chans (fuel + 1) r =
      .error "Not yet implemented: threshold broadcast" := by
  show (if r < rows then
      if chans = rows then _
      else Except.error "Not yet implemented: threshold broadcast"
    else .ok []) = _
  rw [if_pos hr, if_neg hch]

/-! ### Claim C9 -/

/-- C9 counterexample: the broadcast check sits inside the per-row loop, so
`threshold` on an empty accumulate vector returns `ok []` without ever
throwing, although `T[0].size() = 1` differs from `rows = 0` — refuting the
claimed "throws if and only if" equivalence. -/
theorem gemm_C9_counterexample :
    threshold [] [[5]] = .ok [] ∧
    ([[(5 : Int)]].headD []).length ≠ ([] : List Int).length := by
  refine ⟨rfl, by decide⟩

/-- C9 (amended: the "not implemented" error is raised iff the channel count
differs from `rows` AND there is at least one row; with zero rows both
functions return an empty result without throwing): otherwise entry `r` is
the count of thresholds crossed by the row's accumulated value. -/
theorem gemm_C9_threshold (x : List Int) (T : List (List Int))
    (A : List (List (List Bool))) (xv : List (List Bool)) (cols : Nat)
    (Asigned xsigned : Bool) (hT : T ≠ []) (hA : A ≠ []) :
    ((∃ e, threshold x T = .error e) ↔
      (0 < x.length ∧ (T.headD []).length ≠ x.length)) ∧
    ((T.headD []).length = x.length →
      threshold x T =
        .ok ((List.range x.length).map
          (fun r => crossedCount T T.length r (x.getD r 0)))) ∧
    ((∃ e, bitSerialMatrixVectorThreshold A xv T cols Asigned xsigned = .error e) ↔
      (0 < A.length ∧ (T.headD []).length ≠ A.length)) ∧
    ((T.headD []).length = A.length →
      bitSerialMatrixVectorThreshold A xv T cols Asigned xsigned =
        .ok ((List.range A.length).map
          (fun r => crossedCount T T.length r
            (rowAccum (A.getD r []) xv Asigned xsigned (A.headD []).length
              xv.length)))) := by
  have hok : ∀ (elem : Nat → Int) (rows chans : Nat), chans = rows →
      rowLoopGo elem rows chans rows 0 =
        .ok ((List.range rows).map (fun i => elem i)) := by
    intro elem rows chans hch
    rw [rowLoopGo_ok elem rows chans hch rows 0 (by omega)]
    have h0 : rows - 0 = rows := by omega
    rw [h0]
    exact congrArg _ (List.map_congr_left (fun i _ => by show elem (0 + i) = elem i; rw [Nat.zero_add]))
  have hiff : ∀ (elem : Nat → Int) (rows chans : Nat),
      ((∃ e, rowLoopGo elem rows chans rows 0 = .error e) ↔
        (0 < rows ∧ chans ≠ rows)) := by
    intro elem rows chans
    constructor
    · rintro ⟨e, he⟩
      by_cases hch : chans = rows
      · rw [hok elem rows chans hch] at he
        exact absurd he (by simp)
      · rcases Nat.eq_zero_or_pos rows with h0 | h0
        · subst h0
          exact absurd he (by simp [rowLoopGo])
        · exact ⟨h0, hch⟩
    · rintro ⟨h0, hch⟩
      obtain ⟨fuel, hfe⟩ : ∃ fuel, rows = fuel + 1 := ⟨rows - 1, by omega⟩
      subst hfe
      exact ⟨_, rowLoopGo_err elem (fuel + 1) chans fuel 0 hch (by omega)⟩
  refine ⟨?_, ?_, ?_, ?_⟩
  · exact hiff _ x.length (T.headD []).length
  · intro hch
    exact hok _ x.length (T.headD []).length hch
  · exact hiff _ A.length (T.headD []).length
  · intro hch
    exact hok _ A.length (T.headD []).length hch

/-- Witness for the amended C9: a two-row system with one threshold channel
per row counts crossed thresholds, and a mismatched channel count throws. -/
theorem gemm_C9_threshold_witness :
    (([[(3 : Int)], [7]] : List (List Int)) ≠ [] ∧
      ([[[true]]] : List (List (List Bool))) ≠ []) ∧
    (((∃ e, threshold [5, 5] [[3, 7]] = .error e) ↔
      (0 < ([5, 5] : List Int).length ∧
        (([[3, 7]] : List (List Int)).headD []).length ≠ ([5, 5] : List Int).length)) ∧
    ((([[3, 7]] : List (List Int)).headD []).length = ([5, 5] : List Int).length →
      threshold [5, 5] [[3, 7]] =
        .ok ((List.range ([5, 5] : List Int).length).map
          (fun r => crossedCount [[3, 7]] ([[3, 7]] : List (List Int)).length r
            (([5, 5] : List Int).getD r 0)))) ∧
    ((∃ e, bitSerialMatrixVectorThreshold [[[true]]] [[true]] [[3, 7]] 1 false false
        = .error e) ↔
      (0 < ([[[true]]] : List (List (List Bool))).length ∧
        (([[3, 7]] : List (List Int)).headD []).length ≠
          ([[[true]]] : List (List (List Bool))).length)) ∧
    ((([[3, 7]] : List (List Int)).headD []).length =
        ([[[true]]] : List (List (List Bool))).length →
      bitSerialMatrixVectorThreshold [[[true]]] [[true]] [[3, 7]] 1 false false =
        .ok ((List.range ([[[true]]] : List (List (List Bool))).length).map
          (fun r => crossedCount [[3, 7]] ([[3, 7]] : List (List Int)).length r
            (rowAccum (([[[true]]] : List (List (List Bool))).getD r []) [[true]]
              false false
              (([[[true]]] : List (List (List Bool))).headD []).length
              ([[true]] : List (List Bool)).length))))) :=
  ⟨⟨by decide, by decide⟩,
    gemm_C9_threshold [5, 5] [[3, 7]] [[[true]]] [[true]] 1 false false
      (by decide) (by decide)⟩

/-- Witness for C10: a 9-bit unsigned 1x1 matrix holding 255 has empty
bit-plane 8 after import. -/
theorem gemm_C10_high_planes_witness :
    (8 < (BitSerialMatrix.alloc (fun _ => 1) 9 1 1 false 1 64).nbits) ∧
    (∀ b, 8 ≤ b → b < (BitSerialMatrix.alloc (fun _ => 1) 9 1 1 false 1 64).nbits →
      ∀ r2, r2 < (BitSerialMatrix.alloc (fun _ => 1) 9 1 1 false 1 64).nrows_a →
      ∀ c2, c2 < (BitSerialMatrix.alloc (fun _ => 1) 9 1 1 false 1 64).ncols_a →
      ((BitSerialMatrix.alloc (fun _ => 1) 9 1 1 false 1 64).importRegular
          (fun _ => 255) false).get b r2 c2 = false) :=
  ⟨by decide,
    gemm_C10_high_planes (BitSerialMatrix.alloc (fun _ => 1) 9 1 1 false 1 64)
      (fun _ => 255) false (by decide) (by decide) (by decide) (by decide)⟩

end GemmBitserial
